import Mathlib

/-!
A shallow embedding of the godcr GUI widgets under verification:
the editable text area `ui/decredmaterial/editor/editor.go` and the
progress bar `ui/themes/materialplus/progressbar.go`.

Conventions of the embedding:
* `fixed.Int26_6` (26.6 fixed point) is embedded as `Int` carrying the raw
  64ths-of-a-pixel value; `fixFloor`, `fixCeil`, `fixI` mirror the go
  `Floor`, `Ceil` and `I` operations (`>> 6` on a signed integer is floor
  division by 64).
* Byte strings are embedded as `List Char`; byte offsets count UTF-8 bytes
  (`Char.utf8Size`).
* Go code that would panic (out-of-range indexing) is embedded through
  `Option`, `none` marking the panic.
-/

namespace Godcr

/-- `fixed.Int26_6.Floor`: `int((x + 0x00) >> 6)`, floor division by 64. -/
def fixFloor (x : Int) : Int := x / 64

/-- `fixed.Int26_6.Ceil`: `int((x + 0x3f) >> 6)`. -/
def fixCeil (x : Int) : Int := (x + 63) / 64

/-- `fixed.I`: converts an integer number of pixels to 26.6 fixed point. -/
def fixI (i : Int) : Int := 64 * i

/-- Go's truncating (toward zero) integer division, used by `/` on
`fixed.Int26_6` values (an `int32`). -/
def goDiv (a b : Int) : Int := Int.tdiv a b

/-- `image.Point`. -/
structure Point where
  X : Int
  Y : Int
deriving Repr, DecidableEq

/-- `image.Rectangle`. -/
structure Rectangle where
  Min : Point
  Max : Point
deriving Repr, DecidableEq

/-- `layout.Dimensions` (the `Baseline` field is irrelevant to the claims
under study and is omitted). -/
structure Dimensions where
  Size : Point
deriving Repr, DecidableEq

/-- `text.Alignment` from the gio toolkit. -/
inductive Alignment where
  | Start
  | Middle
  | End
deriving Repr, DecidableEq

/-- A glyph of a laid-out line (`text.Glyph`): its rune and its advance. -/
structure Glyph where
  Rune : Char
  Advance : Int
deriving Repr, DecidableEq

/-- A laid-out line of text (`text.Line`).  `Len` is the line's length in
UTF-8 bytes, `Layout` its glyphs. -/
structure Line where
  Layout : List Glyph
  Len : Nat
  Width : Int
  Ascent : Int
  Descent : Int
deriving Repr, DecidableEq

/-- Modelled from the spec: the horizontal alignment offset helper `align`
of the editor package (the file defining it is missing from the excerpt).
It offsets a line of width `width` inside `maxWidth` pixels: `Start` keeps
it at 0, `End` pushes it to the right edge, `Middle` centers it; the
result is a whole number of pixels in fixed point. -/
def align (a : Alignment) (width : Int) (maxWidth : Int) : Int :=
  let mw := fixI maxWidth
  match a with
  | Alignment.Start => 0
  | Alignment.Middle => fixI (fixFloor (goDiv (mw - width) 2))
  | Alignment.End => fixI (fixFloor (mw - width))

/-- UTF-8 byte length of a character sequence. -/
def utf8Len (cs : List Char) : Nat := (cs.map Char.utf8Size).sum

/-- Modelled from the spec: the editor's text buffer `editBuffer` (its
defining file is missing from the excerpt; the spec describes the widget as
"converting between rune offsets and screen coordinates", so the buffer
holds the text and a caret measured in UTF-8 bytes, plus the change flag
that feeds `ChangeEvent`s). -/
structure editBuffer where
  text : List Char
  caret : Nat
  changed : Bool
deriving Repr, DecidableEq

/-- Modelled from the spec: `editBuffer.len`, the byte length of the
contents. -/
def editBuffer.len (rr : editBuffer) : Nat := utf8Len rr.text

/-- Modelled from the spec: splitting a character sequence at a byte
offset (characters are never split: a character beginning before offset
`k` goes to the left part). -/
def splitBytes : List Char → Nat → List Char × List Char
  | [], _ => ([], [])
  | c :: cs, k =>
    if c.utf8Size ≤ k then
      let (l, r) := splitBytes cs (k - c.utf8Size)
      (c :: l, r)
    else ([], c :: cs)

/-- Modelled from the spec: `editBuffer.prepend` inserts a string at the
caret without moving the caret, recording a change when the string is
nonempty. -/
def editBuffer.prepend (rr : editBuffer) (s : List Char) : editBuffer :=
  let (l, r) := splitBytes rr.text rr.caret
  { rr with text := l ++ s ++ r, changed := rr.changed || decide (s ≠ []) }

/-- Modelled from the spec: `editBuffer.runeAt` returns the rune starting
at a byte offset together with its byte size (size 0 when past the end). -/
def runeAt : List Char → Nat → Char × Nat
  | [], _ => (' ', 0)
  | c :: cs, pos => if pos = 0 then (c, c.utf8Size) else runeAt cs (pos - c.utf8Size)

/-- Modelled from the spec: `editBuffer.runeBefore` returns the rune ending
at a byte offset together with its byte size (size 0 at offset 0). -/
def runeBefore : List Char → Nat → Char × Nat
  | [], _ => (' ', 0)
  | c :: cs, pos =>
    if pos = 0 then (' ', 0)
    else if pos ≤ c.utf8Size then (c, c.utf8Size)
    else runeBefore cs (pos - c.utf8Size)

/-- Modelled from the spec: `editBuffer.Changed` reports and clears the
change flag. -/
def editBuffer.Changed (rr : editBuffer) : Bool × editBuffer :=
  (rr.changed, { rr with changed := false })

/-- Modelled from the spec: one caret step backward over a rune. -/
def caretBack1 (rr : editBuffer) : editBuffer :=
  { rr with caret := rr.caret - (runeBefore rr.text rr.caret).2 }

/-- Modelled from the spec: one caret step forward over a rune. -/
def caretFwd1 (rr : editBuffer) : editBuffer :=
  { rr with caret := rr.caret + (runeAt rr.text rr.caret).2 }

/-- Modelled from the spec: `editBuffer.move` moves the caret by a number
of runes, clamped to the ends of the buffer. -/
def editBuffer.move (rr : editBuffer) (distance : Int) : editBuffer :=
  if distance < 0 then
    (fun n => Nat.rec rr (fun _ acc => caretBack1 acc) n) (-distance).toNat
  else
    (fun n => Nat.rec rr (fun _ acc => caretFwd1 acc) n) distance.toNat

/-- Modelled from the spec: deleting the rune starting at the caret. -/
def deleteFwd1 (rr : editBuffer) : editBuffer :=
  let (l, r) := splitBytes rr.text rr.caret
  match r with
  | [] => rr
  | _ :: r2 => { rr with text := l ++ r2, changed := true }

/-- Modelled from the spec: deleting the rune ending at the caret, caret
moving back over it. -/
def deleteBack1 (rr : editBuffer) : editBuffer :=
  let (l, r) := splitBytes rr.text rr.caret
  match l.reverse with
  | [] => rr
  | c :: l2 =>
    { text := l2.reverse ++ r, caret := rr.caret - c.utf8Size, changed := true }

/-- Modelled from the spec: `editBuffer.deleteRunes` deletes a number of
runes at the caret, positive counts forward, negative backward. -/
def editBuffer.deleteRunes (rr : editBuffer) (runes : Int) : editBuffer :=
  if runes < 0 then
    (fun n => Nat.rec rr (fun _ acc => deleteBack1 acc) n) (-runes).toNat
  else
    (fun n => Nat.rec rr (fun _ acc => deleteFwd1 acc) n) runes.toNat

/-- Events delivered by the editor (`ChangeEvent` and `SubmitEvent`). -/
inductive EditorEvent where
  | change
  | submit (text : List Char)
deriving Repr, DecidableEq

/-- The editor widget's state (`Editor`), restricted to the fields the
claims under study read or write.  The pieces owned by the rendering
runtime (shaper, gesture recognizers, blink clock) are not modelled; the
laid-out `lines` and `dims` stand in for the output of `layoutText`. -/
structure Editor where
  Alignment : Alignment
  SingleLine : Bool
  Submit : Bool
  focused : Bool
  rr : editBuffer
  viewSize : Point
  lines : List Line
  dims : Dimensions
  scrollOff : Point
  carXOff : Int
  caretScroll : Bool
  events : List EditorEvent
deriving Repr, DecidableEq

/-- `Editor.Len`: the byte length of the editor contents. -/
def Editor.Len (e : Editor) : Nat := e.rr.len

/-- `Editor.Text`: the contents of the editor. -/
def Editor.Text (e : Editor) : List Char := e.rr.text

/-- `Editor.prepend`: inserts at the caret and resets the horizontal caret
memory (`invalidate` touches only the cached layout and is not modelled). -/
def Editor.prepend (e : Editor) (s : List Char) : Editor :=
  { e with rr := e.rr.prepend s, carXOff := 0 }

/-- `Editor.SetText`: replaces the contents of the editor. -/
def Editor.SetText (e : Editor) (s : List Char) : Editor :=
  Editor.prepend { e with rr := { text := [], caret := 0, changed := false } } s

/-- `Editor.append`: inserts at the caret moving the caret forward; in
`SingleLine` mode newlines are first stripped
(`strings.ReplaceAll(s, "\n", "")`). -/
def Editor.append (e : Editor) (s : List Char) : Editor :=
  let s := if e.SingleLine then s.filter (fun c => c ≠ '\n') else s
  let e := e.prepend s
  { e with rr := { e.rr with caret := e.rr.caret + utf8Len s } }

/-- `Editor.Insert`: inserts text at the caret, moving the caret forward
and requesting a scroll to the caret. -/
def Editor.Insert (e : Editor) (s : List Char) : Editor :=
  { e.append s with caretScroll := true }

/-- `Editor.Delete`: deletes runes from the caret position. -/
def Editor.Delete (e : Editor) (runes : Int) : Editor :=
  { e with rr := e.rr.deleteRunes runes, carXOff := 0 }

/-- `Editor.Move`: moves the caret by a rune distance. -/
def Editor.Move (e : Editor) (distance : Int) : Editor :=
  { e with rr := e.rr.move distance, carXOff := 0 }

/-- `Editor.scrollBounds`: the rectangle bounding the scroll offset.  In
`SingleLine` mode the X range comes from the first line's alignment offset
(capped at 0) and the laid-out width; otherwise the Y range comes from the
laid-out height against the viewport height. -/
def Editor.scrollBounds (e : Editor) : Rectangle :=
  if e.SingleLine then
    let minX : Int :=
      match e.lines with
      | [] => 0
      | l0 :: _ =>
        let m := fixFloor (align e.Alignment l0.Width e.viewSize.X)
        if m > 0 then 0 else m
    { Min := { X := minX, Y := 0 },
      Max := { X := e.dims.Size.X + minX - e.viewSize.X, Y := 0 } }
  else
    { Min := { X := 0, Y := 0 },
      Max := { X := 0, Y := e.dims.Size.Y - e.viewSize.Y } }

/-- `Editor.scrollAbs`: sets the scroll offset, then pushes each component
first under the `Max` corner and then over the `Min` corner of
`scrollBounds` (`scrollBounds` does not read the scroll offset, so setting
it first does not change the bounds). -/
def Editor.scrollAbs (e : Editor) (x y : Int) : Editor :=
  let b := e.scrollBounds
  let sx := if x > b.Max.X then b.Max.X else x
  let sx := if sx < b.Min.X then b.Min.X else sx
  let sy := if y > b.Max.Y then b.Max.Y else y
  let sy := if sy < b.Min.Y then b.Min.Y else sy
  { e with scrollOff := { X := sx, Y := sy } }

/-- `Editor.scrollRel`: scrolls by a relative amount. -/
def Editor.scrollRel (e : Editor) (dx dy : Int) : Editor :=
  e.scrollAbs (e.scrollOff.X + dx) (e.scrollOff.Y + dy)

/-- The inner loop of `layoutCaret`: walks the glyphs of the caret's line,
stopping once the byte index reaches the caret, accumulating the column
and the horizontal position. -/
def glyphWalk (caret : Nat) : Nat → Nat → Int → List Glyph → Nat × Int
  | _, col, x, [] => (col, x)
  | idx, col, x, g :: gs =>
    if idx = caret then (col, x)
    else glyphWalk caret (idx + g.Rune.utf8Size) (col + 1) (x + g.Advance) gs

/-- The line loop of `layoutCaret`: accumulates the baseline `y` of each
line; it descends into the line holding the caret (or the last line),
returning the line index (relative to the sublist), the column, the
unaligned horizontal position and the baseline. -/
def caretWalk (caret : Nat) : Nat → Int → Int → List Line → Option (Nat × Nat × Int × Int)
  | _, _, _, [] => none
  | idx, prevDesc, y, l :: rest =>
    let y := y + fixCeil (prevDesc + l.Ascent)
    if rest.isEmpty || decide (caret < idx + l.Layout.length) then
      let (col, x) := glyphWalk caret idx 0 0 l.Layout
      some (0, col, x, y)
    else
      (caretWalk caret (idx + l.Len) l.Descent y rest).map
        (fun r => (r.1 + 1, r.2))

/-- `Editor.layoutCaret`: the caret's line index, column, horizontal fixed
position (alignment included) and baseline `y`; `none` marks the panic on
an editor with no laid-out lines. -/
def Editor.layoutCaret (e : Editor) : Option (Nat × Nat × Int × Int) :=
  (caretWalk e.rr.caret 0 0 0 e.lines).bind fun r =>
    (e.lines.get? r.1).map fun l =>
      (r.1, r.2.1, r.2.2.1 + align e.Alignment l.Width e.viewSize.X, r.2.2.2)

/-- The caret-to-line-start loop of `moveToLine`: steps the caret back over
`n` runes. -/
def stepBackN (rr : editBuffer) : Nat → editBuffer
  | 0 => rr
  | n + 1 => caretBack1 (stepBackN rr n)

/-- The closest-rune loop of `moveToLine`: starting from horizontal
position `carX2` it walks the glyphs while stepping over the next glyph
still brings the position strictly closer to `carX`, moving the caret a
rune forward per step. -/
def seekMove (carX : Int) : Int → editBuffer → List Glyph → Int × editBuffer
  | carX2, rr, [] => (carX2, rr)
  | carX2, rr, g :: gs =>
    if carX2 ≥ carX then (carX2, rr)
    else if carX2 + g.Advance - carX ≥ carX - carX2 then (carX2, rr)
    else seekMove carX (carX2 + g.Advance) (caretFwd1 rr) gs

/-- Sum of the `Len` fields of a list of lines. -/
def sumLen (ls : List Line) : Nat := (ls.map Line.Len).sum

/-- Sum of the advances of a list of glyphs. -/
def advSum (gs : List Glyph) : Int := (gs.map Glyph.Advance).sum

/-- UTF-8 byte length of the runes of a list of glyphs. -/
def glyphBytes (gs : List Glyph) : Nat := utf8Len (gs.map Glyph.Rune)

/-- The clamping of a target line index into `[0, n-1]` performed by
`moveToLine`. -/
def clampLine (t : Int) (n : Nat) : Nat :=
  if t < 0 then 0
  else if t ≥ (n : Int) then n - 1
  else t.toNat

/-- The caret transfer loops of `moveToLine`: from the start of line
`carLine`, the caret byte offset moves forward (or back) over the `Len`
of each line between `carLine` and the target line `cl2`. -/
def transferCaret (ls : List Line) (rrb : editBuffer) (carLine cl2 : Nat) : editBuffer :=
  if cl2 > carLine then
    { rrb with caret := rrb.caret + sumLen ((ls.drop carLine).take (cl2 - carLine)) }
  else if cl2 < carLine then
    { rrb with caret := rrb.caret - sumLen ((ls.drop cl2).take (carLine - cl2)) }
  else rrb

/-- `Editor.moveToLine`: moves the caret onto line `carLine2` (clamped) at
the rune closest to horizontal position `carX`, returning the residual
offset together with the new state; `none` marks the panic on an editor
with no laid-out lines. -/
def Editor.moveToLine (e : Editor) (carX : Int) (carLine2 : Int) : Option (Int × Editor) :=
  e.layoutCaret.bind fun r =>
    let cl2 : Nat := clampLine carLine2 e.lines.length
    let rr := transferCaret e.lines (stepBackN e.rr r.2.1) r.1 cl2
    (e.lines.get? cl2).map fun l2 =>
      let carX2 := align e.Alignment l2.Width e.viewSize.X
      let endGap : Nat := if cl2 < e.lines.length - 1 then 1 else 0
      let (carX2, rr) := seekMove carX carX2 rr (l2.Layout.take (l2.Layout.length - endGap))
      (carX - carX2, { e with rr := rr })

/-- The line-selection loop of `moveCoord`: counts the lines whose bottom
edge (baseline plus ceiled descent) lies strictly above the target `y`
coordinate, stopping at the first line whose bottom edge reaches it. -/
def coordLine (ty : Int) : Int → Int → List Line → Nat
  | _, _, [] => 0
  | prevDesc, y, l :: rest =>
    let y := y + fixCeil (prevDesc + l.Ascent)
    if y + fixCeil l.Descent ≥ ty then 0
    else 1 + coordLine ty l.Descent y rest

/-- The bottom edges of a list of laid-out lines: each line's cumulative
baseline (ceiled previous descent plus own ascent, added up) plus its own
ceiled descent. -/
def lineBottoms : Int → Int → List Line → List Int
  | _, _, [] => []
  | pd, y, l :: rest =>
    (y + fixCeil (pd + l.Ascent) + fixCeil l.Descent) ::
      lineBottoms l.Descent (y + fixCeil (pd + l.Ascent)) rest

/-- `Editor.moveCoord`: maps a pointer position (plus scroll offset) to a
caret position via `moveToLine`. -/
def Editor.moveCoord (e : Editor) (pos : Point) : Option Editor :=
  let carLine := coordLine (pos.Y + e.scrollOff.Y) 0 0 e.lines
  (e.moveToLine (fixI (pos.X + e.scrollOff.X)) (carLine : Int)).map (fun r => r.2)

/-- The total laid-out height of a list of lines: each line contributes the
ceiled sum of the previous line's descent and its own ascent, and the last
line additionally its own ceiled descent. -/
def totalH : Int → List Line → Int
  | _, [] => 0
  | prevDesc, l :: rest =>
    fixCeil (prevDesc + l.Ascent) +
      (match rest with
       | [] => fixCeil l.Descent
       | _ => totalH l.Descent rest)

/-- Modelled from the spec: `linesDimens` of the editor package (its
defining file is missing from the excerpt): the laid-out dimensions are
the ceiled maximal line width by the total laid-out height. -/
def linesDimens (ls : List Line) : Dimensions :=
  { Size := { X := fixCeil ((ls.map Line.Width).foldl max 0), Y := totalH 0 ls } }

/-- `Editor.scrollToCaret`: scrolls so the caret becomes visible — in
`SingleLine` mode horizontally by the caret's floored/ceiled x position,
otherwise vertically by the caret line's ascent/descent span around the
baseline; `none` marks the panic on an editor with no laid-out lines. -/
def Editor.scrollToCaret (e : Editor) : Option Editor :=
  e.layoutCaret.bind fun r =>
    (e.lines.get? r.1).map fun l =>
      let x := r.2.2.1
      let y := r.2.2.2
      if e.SingleLine then
        let dist : Int :=
          if fixFloor x - e.scrollOff.X < 0 then fixFloor x - e.scrollOff.X
          else if fixCeil x - (e.scrollOff.X + e.viewSize.X) > 0 then
            fixCeil x - (e.scrollOff.X + e.viewSize.X)
          else 0
        e.scrollRel dist 0
      else
        let miny := y - fixCeil l.Ascent
        let maxy := y + fixCeil l.Descent
        let dist : Int :=
          if miny - e.scrollOff.Y < 0 then miny - e.scrollOff.Y
          else if maxy - (e.scrollOff.Y + e.viewSize.Y) > 0 then
            maxy - (e.scrollOff.Y + e.viewSize.Y)
          else 0
        e.scrollRel 0 dist

/-- The scroll adjustment `layout` performs each frame: a clamping
`scrollRel(0, 0)` followed, when `caretScroll` is set, by
`scrollToCaret`. -/
def Editor.layoutScroll (e : Editor) : Option Editor :=
  let e := e.scrollRel 0 0
  if e.caretScroll then ({ e with caretScroll := false } : Editor).scrollToCaret
  else some e

/-- The page-selection loop of `movePages` (embedded as in the source,
including its use of the first line's ceiled ascent as the starting
baseline). -/
def pageWalk (y : Int) : Int → Int → List Line → Nat
  | _, _, [] => 0
  | prevDesc, y2, l :: rest =>
    if y2 ≥ y then 0
    else
      let h := fixCeil (prevDesc + l.Ascent)
      if y2 + h - y ≥ y - y2 then 0
      else 1 + pageWalk y l.Descent (y2 + h) rest

/-- `Editor.movePages`: moves the caret a whole number of pages, keeping
the horizontal caret memory. -/
def Editor.movePages (e : Editor) (pages : Int) : Option Editor :=
  e.layoutCaret.bind fun r =>
    match e.lines with
    | [] => none
    | l0 :: rest =>
      let carX := r.2.2.1
      let y := r.2.2.2 + pages * e.viewSize.Y
      let carLine2 := pageWalk y 0 (fixCeil l0.Ascent) rest
      (e.moveToLine (carX + e.carXOff) (carLine2 : Int)).map fun m =>
        { m.2 with carXOff := m.1 }

/-- `Editor.moveStart`: moves the caret to the start of its line, storing
the negated distance in the horizontal caret memory. -/
def Editor.moveStart (e : Editor) : Option Editor :=
  e.layoutCaret.bind fun r =>
    (e.lines.get? r.1).map fun l =>
      let carCol := r.2.1
      let x := r.2.2.1 - ((l.Layout.take carCol).map Glyph.Advance).sum
      let rr := stepBackN e.rr carCol
      { e with rr := rr, carXOff := -x }

/-- The caret-to-line-end loop of `moveEnd`: steps the caret forward over
each remaining glyph, accumulating the advances. -/
def stepFwdGlyphs : Int → editBuffer → List Glyph → Int × editBuffer
  | x, rr, [] => (x, rr)
  | x, rr, g :: gs => stepFwdGlyphs (x + g.Advance) (caretFwd1 rr) gs

/-- `Editor.moveEnd`: moves the caret to the end of its line (never past
the last rune of a non-last line), storing the remaining width in the
horizontal caret memory. -/
def Editor.moveEnd (e : Editor) : Option Editor :=
  e.layoutCaret.bind fun r =>
    (e.lines.get? r.1).map fun l =>
      let carCol := r.2.1
      let endGap : Nat := if r.1 < e.lines.length - 1 then 1 else 0
      let gs := (l.Layout.take (l.Layout.length - endGap)).drop carCol
      let (x, rr) := stepFwdGlyphs r.2.2.1 e.rr gs
      let a := align e.Alignment l.Width e.viewSize.X
      { e with rr := rr, carXOff := l.Width + a - x }

/-- The names of the keys `Editor.command` inspects. -/
inductive KeyName where
  | ret
  | enter
  | deleteBackward
  | deleteForward
  | upArrow
  | downArrow
  | leftArrow
  | rightArrow
  | pageUp
  | pageDown
  | home
  | endKey
  | other
deriving Repr, DecidableEq

/-- `Editor.command`: dispatches a key to the corresponding edit, returning
whether the key was recognized; `none` marks a panic inside the dispatched
edit. -/
def Editor.command (e : Editor) (k : KeyName) : Option (Bool × Editor) :=
  match k with
  | KeyName.ret => some (true, e.append ['\n'])
  | KeyName.enter => some (true, e.append ['\n'])
  | KeyName.deleteBackward => some (true, e.Delete (-1))
  | KeyName.deleteForward => some (true, e.Delete 1)
  | KeyName.upArrow =>
    e.layoutCaret.bind fun r =>
      (e.moveToLine (r.2.2.1 + e.carXOff) ((r.1 : Int) - 1)).map fun m =>
        (true, { m.2 with carXOff := m.1 })
  | KeyName.downArrow =>
    e.layoutCaret.bind fun r =>
      (e.moveToLine (r.2.2.1 + e.carXOff) ((r.1 : Int) + 1)).map fun m =>
        (true, { m.2 with carXOff := m.1 })
  | KeyName.leftArrow => some (true, e.Move (-1))
  | KeyName.rightArrow => some (true, e.Move 1)
  | KeyName.pageUp => (e.movePages (-1)).map fun e2 => (true, e2)
  | KeyName.pageDown => (e.movePages 1).map fun e2 => (true, e2)
  | KeyName.home => e.moveStart.map fun e2 => (true, e2)
  | KeyName.endKey => e.moveEnd.map fun e2 => (true, e2)
  | KeyName.other => some (false, e)

/-- The keyboard events `processKey` receives from the input router. -/
inductive KeyEvt where
  | focus (b : Bool)
  | keyev (name : KeyName) (shift : Bool)
  | edit (s : List Char)
deriving Repr, DecidableEq

/-- The per-event change check of `processKey`: reads and clears the
buffer's change flag, appending a `ChangeEvent` when it was set. -/
def changeCheck (e : Editor) : Editor :=
  let (c, rr) := e.rr.Changed
  { e with rr := rr,
           events := if c then e.events ++ [EditorEvent.change] else e.events }

/-- The event loop of `processKey`.  A Return/Enter without Shift on a
focused editor with `Submit` set appends a `SubmitEvent` and returns
immediately, abandoning the remaining events of the frame. -/
def processKeyLoop : Editor → List KeyEvt → Option Editor
  | e, [] => some e
  | e, KeyEvt.focus b :: rest =>
    processKeyLoop (changeCheck { e with focused := b }) rest
  | e, KeyEvt.keyev name shift :: rest =>
    if e.focused then
      if e.Submit && (name = KeyName.ret || name = KeyName.enter) && !shift then
        some { e with events := e.events ++ [EditorEvent.submit e.Text] }
      else
        (e.command name).bind fun c =>
          let e := if c.1 then { c.2 with caretScroll := true } else c.2
          processKeyLoop (changeCheck e) rest
    else
      processKeyLoop (changeCheck e) rest
  | e, KeyEvt.edit s :: rest =>
    processKeyLoop (changeCheck (({ e with caretScroll := true } : Editor).append s)) rest

/-- `Editor.processKey`: a leading change check followed by the event
loop. -/
def Editor.processKey (e : Editor) (evts : List KeyEvt) : Option Editor :=
  processKeyLoop (changeCheck e) evts

/-- `color.RGBA`. -/
structure RGBA where
  r : Nat
  g : Nat
  b : Nat
  a : Nat
deriving Repr, DecidableEq

/-- Modelled from the spec: the package constant `values.ProgressBarGray`
(the `ui/values` package is missing from the excerpt); the spec only fixes
that the track is always drawn with this gray constant. -/
def ProgressBarGray : RGBA := { r := 200, g := 200, b := 200, a := 255 }

/-- Modelled from the spec: the package constant `values.ProgressBarGreen`
(the `ui/values` package is missing from the excerpt). -/
def ProgressBarGreen : RGBA := { r := 65, g := 190, b := 83, a := 255 }

/-- Modelled from the spec: the package constant
`values.DefaultProgressBarHeight` (the `ui/values` package is missing from
the excerpt). -/
def DefaultProgressBarHeight : Int := 20

/-- `ProgressBar`: height of the bar and its two colors. -/
structure ProgressBar where
  Height : Int
  BackgroundColor : RGBA
  ProgressColor : RGBA
deriving Repr, DecidableEq

/-- The part of the layout context the progress bar reads: the maximum
width constraint `gtx.Constraints.Width.Max`. -/
structure ProgressCtx where
  widthMax : Int
deriving Repr, DecidableEq

/-- A rounded rectangle drawn by `borderedRectangle`: its fill color, its
size and its corner radius (`float32(y / 5)`, an integer division).
`float64`/`float32` quantities are embedded as exact numbers. -/
structure RectOp where
  color : RGBA
  width : Int
  height : Int
  corner : Int
deriving Repr, DecidableEq

/-- `borderedRectangle`: a clip with corner radius `y / 5` and a fill of
the given color over an `x` by `y` rectangle. -/
def borderedRectangle (color : RGBA) (x y : Int) : RectOp :=
  { color := color, width := x, height := y, corner := goDiv y 5 }

/-- `ProgressBar.track`: the full-width rectangle for the incomplete part,
always in `values.ProgressBarGray`. -/
def ProgressBar.track (p : ProgressBar) (gtx : ProgressCtx) : RectOp :=
  borderedRectangle ProgressBarGray gtx.widthMax p.Height

/-- Go's `int(f)` on a `float64`: truncation toward zero, embedded on
exact rationals. -/
def goTrunc (q : ℚ) : Int := if 0 ≤ q then ⌊q⌋ else -⌊-q⌋

/-- `ProgressBar.value`: the completed-progress rectangle, its width
`progress / 100` of the maximum width constraint, capped at that
constraint (`float64` arithmetic embedded as exact rationals). -/
def ProgressBar.value (p : ProgressBar) (gtx : ProgressCtx) (progress : ℚ) : RectOp :=
  let width : ℚ := progress / 100 * (gtx.widthMax : ℚ)
  let width := if width > (gtx.widthMax : ℚ) then (gtx.widthMax : ℚ) else width
  borderedRectangle p.ProgressColor (goTrunc width) p.Height

/-- `ProgressBar.Layout`: stacks the track and the progress value, in that
order. -/
def ProgressBar.Layout (p : ProgressBar) (gtx : ProgressCtx) (progress : ℚ) : List RectOp :=
  [p.track gtx, p.value gtx progress]

/-- `Theme.ProgressBar`: the progress bar a theme constructs. -/
def themeProgressBar : ProgressBar :=
  { Height := DefaultProgressBarHeight,
    BackgroundColor := ProgressBarGray,
    ProgressColor := ProgressBarGreen }

/-- `Editor.CaretPos`: the line and column numbers of the caret. -/
def Editor.CaretPos (e : Editor) : Option (Nat × Nat) :=
  e.layoutCaret.map fun r => (r.1, r.2.1)

/-- `Editor.CaretCoords`: the x and y coordinates of the caret. -/
def Editor.CaretCoords (e : Editor) : Option (Int × Int) :=
  e.layoutCaret.map fun r => (r.2.2.1, r.2.2.2)

/-- The runes of a laid-out line, in order. -/
def lineChars (l : Line) : List Char := l.Layout.map Glyph.Rune

/-- The text a list of laid-out lines displays. -/
def linesText (ls : List Line) : List Char := (ls.map lineChars).flatten

/-- The byte offset at which line `k` starts (the sum of the `Len` fields
of the lines before it). -/
def lineStart (ls : List Line) (k : Nat) : Nat := sumLen (ls.take k)

/-- How many of the given glyphs, laid out from byte offset `start`, end
at or before byte offset `caret`. -/
def glyphsBefore (start caret : Nat) : List Glyph → Nat
  | [] => 0
  | g :: gs =>
    if start + g.Rune.utf8Size ≤ caret then 1 + glyphsBefore (start + g.Rune.utf8Size) caret gs
    else 0

/-- The number of glyphs of line `k` wholly preceding byte offset `caret`. -/
def glyphsBeforeCaret (ls : List Line) (k : Nat) (caret : Nat) : Nat :=
  match ls.get? k with
  | none => 0
  | some l => glyphsBefore (lineStart ls k) caret l.Layout

/-! Concrete editor states used by witnesses and counterexamples. -/

/-- A glyph of width one pixel. -/
def px1 (c : Char) : Glyph := { Rune := c, Advance := 64 }

/-- An empty multi-line editor with a 100 by 10 viewport. -/
def edBase : Editor :=
  { Alignment := Alignment.Start, SingleLine := false, Submit := false, focused := false,
    rr := { text := [], caret := 0, changed := false },
    viewSize := { X := 100, Y := 10 }, lines := [], dims := { Size := { X := 0, Y := 0 } },
    scrollOff := { X := 0, Y := 0 }, carXOff := 0, caretScroll := false, events := [] }

/-- A one-pixel-advance line holding the given characters. -/
def asciiLine (cs : List Char) : Line :=
  { Layout := cs.map px1, Len := cs.length, Width := fixI cs.length,
    Ascent := 64, Descent := 32 }

/-- A laid-out two-line editor over the text `abcd`, caret after `c`. -/
def edTwoLines : Editor :=
  { edBase with
    rr := { text := ['a', 'b', 'c', 'd'], caret := 3, changed := false },
    lines := [asciiLine ['a', 'b'], asciiLine ['c', 'd']],
    dims := linesDimens [asciiLine ['a', 'b'], asciiLine ['c', 'd']] }

/-- The two-line editor with a viewport shorter than its content, so that
`scrollBounds` is a well-ordered rectangle. -/
def edScrollW : Editor := { edTwoLines with viewSize := { X := 100, Y := 2 } }

/-- The two-line editor, focused and with `Submit` set. -/
def edSubmitW : Editor := { edTwoLines with Submit := true, focused := true }

/-- The two-line editor with a two-pixel viewport and a pending scroll to
the caret. -/
def edC3W : Editor := { edScrollW with caretScroll := true }

/-- An editor whose laid-out content (empty) is smaller than its viewport,
making `scrollBounds` an inverted rectangle. -/
def cexScrollEd : Editor := edBase

/-- A two-line editor whose first line holds the two-byte rune `é`: the
caret at byte offset 2 sits between `é` and `a` on line 0. -/
def cexRuneEd : Editor :=
  { edBase with
    rr := { text := ['é', 'a', 'x', 'y'], caret := 2, changed := false },
    lines := [{ Layout := [px1 'é', px1 'a'], Len := 3, Width := 128, Ascent := 64, Descent := 32 },
              asciiLine ['x', 'y']],
    dims := { Size := { X := 2, Y := 4 } } }

/-- A focused single-line editor with `Submit` set, over the text `ab`. -/
def cexSubmitEd : Editor :=
  { edBase with
    SingleLine := true, Submit := true, focused := true,
    rr := { text := ['a', 'b'], caret := 2, changed := false },
    lines := [asciiLine ['a', 'b']], dims := { Size := { X := 2, Y := 2 } } }

/-- A single-line editor with a zero-width viewport and the caret at the
fractional position half a pixel: `scrollToCaret` cannot make it
visible. -/
def cexViewEd : Editor :=
  { edBase with
    SingleLine := true, caretScroll := true,
    rr := { text := ['a'], caret := 1, changed := false },
    lines := [{ Layout := [{ Rune := 'a', Advance := 32 }], Len := 1, Width := 32,
                Ascent := 64, Descent := 32 }],
    dims := { Size := { X := 1, Y := 2 } }, viewSize := { X := 0, Y := 2 } }

/-! Theorems. -/

theorem scrollAbs_lines (e : Editor) (x y : Int) : (e.scrollAbs x y).lines = e.lines := rfl

theorem scrollAbs_scrollBounds (e : Editor) (x y : Int) :
    (e.scrollAbs x y).scrollBounds = e.scrollBounds := rfl

theorem scrollAbs_scrollOff (e : Editor) (x y : Int) :
    (e.scrollAbs x y).scrollOff =
      { X := max e.scrollBounds.Min.X (min x e.scrollBounds.Max.X),
        Y := max e.scrollBounds.Min.Y (min y e.scrollBounds.Max.Y) } := by
  simp only [Editor.scrollAbs, Point.mk.injEq]
  split_ifs <;> constructor <;> omega

/-- C1 (amended): after `scrollAbs` (and hence `scrollRel`, which is
defined through it) each scroll-offset component is
`max(b.Min, min(requested, b.Max))`; therefore, provided `scrollBounds` is
a well-ordered rectangle (`b.Min.X ≤ b.Max.X` and `b.Min.Y ≤ b.Max.Y`),
the scroll offset lies within it on both axes. -/
theorem scrollAbs_within_bounds (e : Editor) (x y : Int)
    (hx : e.scrollBounds.Min.X ≤ e.scrollBounds.Max.X)
    (hy : e.scrollBounds.Min.Y ≤ e.scrollBounds.Max.Y) :
    ((e.scrollAbs x y).scrollBounds.Min.X ≤ (e.scrollAbs x y).scrollOff.X ∧
      (e.scrollAbs x y).scrollOff.X ≤ (e.scrollAbs x y).scrollBounds.Max.X ∧
      (e.scrollAbs x y).scrollBounds.Min.Y ≤ (e.scrollAbs x y).scrollOff.Y ∧
      (e.scrollAbs x y).scrollOff.Y ≤ (e.scrollAbs x y).scrollBounds.Max.Y) ∧
    ((e.scrollRel x y).scrollBounds.Min.X ≤ (e.scrollRel x y).scrollOff.X ∧
      (e.scrollRel x y).scrollOff.X ≤ (e.scrollRel x y).scrollBounds.Max.X ∧
      (e.scrollRel x y).scrollBounds.Min.Y ≤ (e.scrollRel x y).scrollOff.Y ∧
      (e.scrollRel x y).scrollOff.Y ≤ (e.scrollRel x y).scrollBounds.Max.Y) := by
  constructor
  · rw [scrollAbs_scrollBounds, scrollAbs_scrollOff]
    dsimp only
    omega
  · rw [Editor.scrollRel, scrollAbs_scrollBounds, scrollAbs_scrollOff]
    dsimp only
    omega

/-- C1 (counterexample): on an editor whose laid-out content is smaller
than the viewport, `scrollBounds` is inverted (`Max.Y = -10 < 0 = Min.Y`)
and after `scrollAbs(0, 0)` the scroll offset exceeds `Max.Y`. -/
theorem scrollAbs_within_bounds_counterexample :
    ¬ ((cexScrollEd.scrollAbs 0 0).scrollOff.Y ≤
        (cexScrollEd.scrollAbs 0 0).scrollBounds.Max.Y) := by decide

theorem scrollAbs_within_bounds_witness :
    (edScrollW.scrollBounds.Min.X ≤ edScrollW.scrollBounds.Max.X ∧
      edScrollW.scrollBounds.Min.Y ≤ edScrollW.scrollBounds.Max.Y) ∧
    (edScrollW.scrollAbs 3 99).scrollBounds.Min.Y ≤ (edScrollW.scrollAbs 3 99).scrollOff.Y ∧
      (edScrollW.scrollAbs 3 99).scrollOff.Y ≤ (edScrollW.scrollAbs 3 99).scrollBounds.Max.Y :=
  ⟨⟨by decide, by decide⟩,
    ((scrollAbs_within_bounds edScrollW 3 99 (by decide) (by decide)).1).2.2⟩

/-- C7: `SetText` followed by `Text` returns exactly the set string, `Len`
is its byte length, and the horizontal caret memory `carXOff` is reset
to 0 — for every editor, `SingleLine` included (`SetText` inserts through
`prepend`, which never strips newlines). -/
theorem setText_text_len_carXOff (e : Editor) (s : List Char) :
    (e.SetText s).Text = s ∧ (e.SetText s).Len = utf8Len s ∧ (e.SetText s).carXOff = 0 := by
  refine ⟨?_, ?_, rfl⟩ <;>
    simp [Editor.SetText, Editor.prepend, editBuffer.prepend, Editor.Text, Editor.Len,
      editBuffer.len, splitBytes]

/-- C10: on a `SingleLine` editor, `Insert` inserts the argument with every
newline removed, the caret advances by exactly the byte length of the
stripped string, and the stripped string contains no newline. -/
theorem singleLine_insert_strips_newlines (e : Editor) (s : List Char)
    (h : e.SingleLine = true) :
    (e.Insert s).rr.text =
      (splitBytes e.rr.text e.rr.caret).1 ++ s.filter (fun c => c ≠ '\n') ++
        (splitBytes e.rr.text e.rr.caret).2 ∧
    (e.Insert s).rr.caret = e.rr.caret + utf8Len (s.filter (fun c => c ≠ '\n')) ∧
    '\n' ∉ s.filter (fun c => c ≠ '\n') := by
  refine ⟨?_, ?_, by simp⟩ <;>
    simp [Editor.Insert, Editor.append, Editor.prepend, editBuffer.prepend, h]

theorem singleLine_insert_strips_newlines_witness :
    cexSubmitEd.SingleLine = true ∧
    (cexSubmitEd.Insert ['x', '\n', 'y']).rr.caret =
      cexSubmitEd.rr.caret + utf8Len (['x', '\n', 'y'].filter (fun c => c ≠ '\n')) :=
  ⟨rfl, (singleLine_insert_strips_newlines cexSubmitEd ['x', '\n', 'y'] rfl).2.1⟩

/-- C6: `ProgressBar.Layout` stacks the gray full-width track and the
progress rectangle whose width is `progress / 100` of the maximum width
constraint truncated to an integer, capped at the maximum width whenever
progress exceeds 100; both rectangles have height `p.Height`
(`float64` arithmetic embedded as exact rationals). -/
theorem progressBar_layout_widths (p : ProgressBar) (gtx : ProgressCtx) (progress : ℚ)
    (h : 0 ≤ gtx.widthMax) :
    p.Layout gtx progress =
      [{ color := ProgressBarGray, width := gtx.widthMax, height := p.Height,
         corner := goDiv p.Height 5 },
       { color := p.ProgressColor,
         width := if 100 < progress then gtx.widthMax
                  else goTrunc (progress / 100 * (gtx.widthMax : ℚ)),
         height := p.Height, corner := goDiv p.Height 5 }] := by
  have hw : goTrunc (if progress / 100 * (gtx.widthMax : ℚ) > (gtx.widthMax : ℚ)
        then (gtx.widthMax : ℚ) else progress / 100 * (gtx.widthMax : ℚ)) =
      if 100 < progress then gtx.widthMax else goTrunc (progress / 100 * (gtx.widthMax : ℚ)) := by
    rcases lt_or_eq_of_le h with hpos | hzero
    · have hM : (0 : ℚ) < (gtx.widthMax : ℚ) := by exact_mod_cast hpos
      have hiff : (progress / 100 * (gtx.widthMax : ℚ) > (gtx.widthMax : ℚ)) ↔ 100 < progress := by
        rw [gt_iff_lt, div_mul_eq_mul_div, lt_div_iff₀ (by norm_num : (0:ℚ) < 100),
          mul_comm (gtx.widthMax : ℚ) 100]
        exact mul_lt_mul_right hM
      by_cases hc : 100 < progress
      · rw [if_pos (hiff.2 hc), if_pos hc]
        simp [goTrunc, hM.le]
      · rw [if_neg (fun hx => hc (hiff.1 hx)), if_neg hc]
    · have hz : (gtx.widthMax : ℚ) = 0 := by exact_mod_cast hzero.symm
      rw [hz]
      simp [goTrunc, ← hzero]
  simp only [ProgressBar.Layout, ProgressBar.track, ProgressBar.value, borderedRectangle]
  rw [hw]

theorem progressBar_layout_widths_witness :
    0 ≤ (10 : Int) ∧
    ProgressBar.Layout themeProgressBar { widthMax := 10 } 150 =
      [{ color := ProgressBarGray, width := 10, height := themeProgressBar.Height,
         corner := goDiv themeProgressBar.Height 5 },
       { color := themeProgressBar.ProgressColor,
         width := if 100 < (150 : ℚ) then 10 else goTrunc (150 / 100 * (10 : ℚ)),
         height := themeProgressBar.Height, corner := goDiv themeProgressBar.Height 5 }] :=
  ⟨by decide, progressBar_layout_widths themeProgressBar { widthMax := 10 } 150 (by decide)⟩

/-- C8: the progress bar's rendered output never depends on its
`BackgroundColor` field — two bars equal in `Height` and `ProgressColor`
lay out identically, and the track is always `values.ProgressBarGray`. -/
theorem progressBar_ignores_backgroundColor (p1 p2 : ProgressBar) (gtx : ProgressCtx)
    (progress : ℚ) (hh : p1.Height = p2.Height) (hpc : p1.ProgressColor = p2.ProgressColor) :
    p1.Layout gtx progress = p2.Layout gtx progress ∧
    (p1.Layout gtx progress).head? =
      some (borderedRectangle ProgressBarGray gtx.widthMax p1.Height) := by
  constructor
  · simp [ProgressBar.Layout, ProgressBar.track, ProgressBar.value, hh, hpc]
  · rfl

theorem utf8Len_cons (c : Char) (cs : List Char) :
    utf8Len (c :: cs) = c.utf8Size + utf8Len cs := by
  simp [utf8Len]

theorem utf8Len_all_one (cs : List Char) (h : ∀ c ∈ cs, c.utf8Size = 1) :
    utf8Len cs = cs.length := by
  induction cs with
  | nil => rfl
  | cons c cs ih =>
    rw [utf8Len_cons, h c (by simp), ih (fun c hc => h c (by simp [hc]))]
    simp [Nat.add_comm]

theorem sumLen_cons (l : Line) (ls : List Line) : sumLen (l :: ls) = l.Len + sumLen ls := by
  simp [sumLen]

theorem glyphWalk_single (caret : Nat) (gs : List Glyph) (idx col : Nat) (x : Int)
    (h1 : ∀ g ∈ gs, g.Rune.utf8Size = 1) (hle : idx ≤ caret)
    (hub : caret ≤ idx + gs.length) :
    (glyphWalk caret idx col x gs).1 = col + (caret - idx) := by
  induction gs generalizing idx col x with
  | nil =>
    simp only [List.length_nil] at hub
    simp only [glyphWalk]
    omega
  | cons g gs ih =>
    by_cases h : idx = caret
    · simp [glyphWalk, h]
    · rw [glyphWalk, if_neg h, h1 g (by simp),
        ih (idx + 1) (col + 1) (x + g.Advance) (fun g hg => h1 g (by simp [hg])) (by omega)
          (by simp at hub; omega)]
      omega

theorem glyphsBefore_single (caret : Nat) (gs : List Glyph) (start : Nat)
    (h1 : ∀ g ∈ gs, g.Rune.utf8Size = 1) (hle : start ≤ caret)
    (hub : caret ≤ start + gs.length) :
    glyphsBefore start caret gs = caret - start := by
  induction gs generalizing start with
  | nil =>
    simp only [List.length_nil] at hub
    simp only [glyphsBefore]
    omega
  | cons g gs ih =>
    rw [glyphsBefore, h1 g (by simp)]
    by_cases h : start + 1 ≤ caret
    · rw [if_pos h, ih (start + 1) (fun g hg => h1 g (by simp [hg])) h (by simp at hub; omega)]
      omega
    · rw [if_neg h]
      omega

theorem caretWalk_single (caret : Nat) (ls : List Line) (idx : Nat) (pd : Int) (y0 : Int)
    (h1 : ∀ l ∈ ls, ∀ g ∈ l.Layout, g.Rune.utf8Size = 1)
    (hlen : ∀ l ∈ ls, l.Len = l.Layout.length)
    (hle : idx ≤ caret) (hub : caret ≤ idx + sumLen ls) (hne : ls ≠ []) :
    ∃ cl cc x y l, caretWalk caret idx pd y0 ls = some (cl, cc, x, y) ∧
      ls.get? cl = some l ∧
      idx + sumLen (ls.take cl) ≤ caret ∧
      caret ≤ idx + sumLen (ls.take cl) + l.Layout.length ∧
      cc = caret - (idx + sumLen (ls.take cl)) := by
  induction ls generalizing idx pd y0 with
  | nil => simp at hne
  | cons l rest ih =>
    by_cases hrest : rest = []
    · subst hrest
      have hub0 : caret ≤ idx + l.Layout.length := by
        rw [sumLen_cons] at hub
        have := hlen l (by simp)
        simp [sumLen] at hub
        omega
      refine ⟨0, (glyphWalk caret idx 0 0 l.Layout).1, (glyphWalk caret idx 0 0 l.Layout).2,
        y0 + fixCeil (pd + l.Ascent), l, ?_, rfl, by simpa using hle, by simpa using hub0, ?_⟩
      · simp [caretWalk]
      · rw [glyphWalk_single caret l.Layout idx 0 0 (h1 l (by simp)) hle hub0]
        simp [sumLen]
    · by_cases hstop : caret < idx + l.Layout.length
      · refine ⟨0, (glyphWalk caret idx 0 0 l.Layout).1, (glyphWalk caret idx 0 0 l.Layout).2,
          y0 + fixCeil (pd + l.Ascent), l, ?_, rfl, by simpa using hle,
          by simpa using hstop.le, ?_⟩
        · simp [caretWalk, hstop]
        · rw [glyphWalk_single caret l.Layout idx 0 0 (h1 l (by simp)) hle hstop.le]
          simp [sumLen]
      · have hlenl := hlen l (by simp)
        have hle2 : idx + l.Len ≤ caret := by omega
        have hub2 : caret ≤ idx + l.Len + sumLen rest := by
          rw [sumLen_cons] at hub
          omega
        obtain ⟨cl, cc, x, y, l', hw, hget, hlb, hub3, hcc⟩ :=
          ih (idx + l.Len) l.Descent (y0 + fixCeil (pd + l.Ascent))
            (fun l2 h2 => h1 l2 (by simp [h2])) (fun l2 h2 => hlen l2 (by simp [h2]))
            hle2 hub2 hrest
        refine ⟨cl + 1, cc, x, y, l', ?_, by simpa using hget, ?_, ?_, ?_⟩
        · rw [caretWalk]
          have : (rest.isEmpty || decide (caret < idx + l.Layout.length)) = false := by
            simp [hstop, hrest]
          rw [this]
          simp [hw]
        · simp [List.take_succ_cons, sumLen_cons]
          omega
        · simp [List.take_succ_cons, sumLen_cons]
          omega
        · simp [List.take_succ_cons, sumLen_cons]
          omega

theorem caretWalk_some (caret idx : Nat) (pd : Int) (y0 : Int) (ls : List Line)
    (hne : ls ≠ []) :
    ∃ cl cc x y, caretWalk caret idx pd y0 ls = some (cl, cc, x, y) ∧ cl < ls.length := by
  induction ls generalizing idx pd y0 with
  | nil => exact absurd rfl hne
  | cons l rest ih =>
    by_cases hc : rest.isEmpty || decide (caret < idx + l.Layout.length)
    · refine ⟨0, (glyphWalk caret idx 0 0 l.Layout).1, (glyphWalk caret idx 0 0 l.Layout).2,
        y0 + fixCeil (pd + l.Ascent), ?_, by simp⟩
      rw [caretWalk, if_pos hc]
    · have hrne : rest ≠ [] := by
        intro hx
        rw [hx] at hc
        simp at hc
      obtain ⟨cl, cc, x, y, hw, hlt⟩ :=
        ih (idx + l.Len) l.Descent (y0 + fixCeil (pd + l.Ascent)) hrne
      refine ⟨cl + 1, cc, x, y, ?_, by simp; omega⟩
      rw [caretWalk, if_neg hc, hw]
      rfl

/-- C5 (amended): on an editor with at least one laid-out line,
`layoutCaret` succeeds for every text — every index it takes into
`e.lines` and the line layouts is in bounds, so `CaretPos` and
`CaretCoords` cannot panic — and returns a line index within
`[0, len(lines))`; provided every rune of the layout occupies a single
UTF-8 byte (with the line byte lengths matching their glyphs and the
caret within the text), the returned column equals the number of glyphs
preceding the caret on that line. -/
theorem layoutCaret_safe_single_byte (e : Editor) (hne : e.lines ≠ []) :
    ∃ cl cc x y, e.layoutCaret = some (cl, cc, x, y) ∧
      e.CaretPos = some (cl, cc) ∧ e.CaretCoords = some (x, y) ∧
      cl < e.lines.length ∧
      ((∀ l ∈ e.lines, ∀ g ∈ l.Layout, g.Rune.utf8Size = 1) →
        (∀ l ∈ e.lines, l.Len = utf8Len (lineChars l)) →
        e.rr.caret ≤ sumLen e.lines →
        lineStart e.lines cl ≤ e.rr.caret ∧
          cc = glyphsBeforeCaret e.lines cl e.rr.caret) := by
  obtain ⟨cl, cc, x0, y, hw, hlt⟩ := caretWalk_some e.rr.caret 0 0 0 e.lines hne
  have hget : e.lines.get? cl = some (e.lines.get ⟨cl, hlt⟩) := List.get?_eq_get hlt
  have hget2 : e.lines[cl]? = some (e.lines.get ⟨cl, hlt⟩) := by
    rw [← List.get?_eq_getElem?]
    exact hget
  refine ⟨cl, cc, x0 + align e.Alignment (e.lines.get ⟨cl, hlt⟩).Width e.viewSize.X, y,
    ?_, ?_, ?_, hlt, ?_⟩
  · simp [Editor.layoutCaret, hw, hget2]
  · simp [Editor.CaretPos, Editor.layoutCaret, hw, hget2]
  · simp [Editor.CaretCoords, Editor.layoutCaret, hw, hget2]
  · intro h1 hwf hcar
    have hlen : ∀ l ∈ e.lines, l.Len = l.Layout.length := by
      intro l hl
      rw [hwf l hl, utf8Len_all_one]
      · simp [lineChars]
      · intro c hc
        simp only [lineChars, List.mem_map] at hc
        obtain ⟨g, hg, rfl⟩ := hc
        exact h1 l hl g hg
    obtain ⟨cl', cc', x', y', l', hw', hget', hlb, hub2, hcc⟩ :=
      caretWalk_single e.rr.caret e.lines 0 0 0 h1 hlen (Nat.zero_le _) (by omega) hne
    rw [hw] at hw'
    simp only [Option.some.injEq, Prod.mk.injEq] at hw'
    obtain ⟨h1e, h2e, _, _⟩ := hw'
    subst h1e
    subst h2e
    refine ⟨by simpa [lineStart] using hlb, ?_⟩
    rw [glyphsBeforeCaret, hget']
    show cc = glyphsBefore (lineStart e.lines cl) e.rr.caret l'.Layout
    rw [glyphsBefore_single e.rr.caret l'.Layout (lineStart e.lines cl)
      (h1 l' (List.get?_mem hget')) (by simpa [lineStart] using hlb)
      (by simpa [lineStart] using hub2)]
    simpa [lineStart] using hcc

/-- C5 (counterexample): with the two-byte rune `é` on the first line and
the caret at byte offset 2 (between `é` and `a`, on line 0), `layoutCaret`
compares the byte index against the glyph count and lands on line 1 with
column 2, while no glyph of line 1 precedes the caret — the laid-out lines
being consistent with the buffer text and the caret a rune boundary inside
the text. -/
theorem layoutCaret_carCol_counterexample :
    cexRuneEd.rr.text = linesText cexRuneEd.lines ∧
    (∀ l ∈ cexRuneEd.lines, l.Len = utf8Len (lineChars l)) ∧
    cexRuneEd.rr.caret ≤ sumLen cexRuneEd.lines ∧
    cexRuneEd.CaretPos = some (1, 2) ∧
    glyphsBeforeCaret cexRuneEd.lines 1 cexRuneEd.rr.caret = 0 := by decide

theorem layoutCaret_safe_single_byte_witness :
    edTwoLines.lines ≠ [] ∧
    (∃ cl cc x y, edTwoLines.layoutCaret = some (cl, cc, x, y) ∧
      edTwoLines.CaretPos = some (cl, cc) ∧ edTwoLines.CaretCoords = some (x, y) ∧
      cl < edTwoLines.lines.length ∧
      ((∀ l ∈ edTwoLines.lines, ∀ g ∈ l.Layout, g.Rune.utf8Size = 1) →
        (∀ l ∈ edTwoLines.lines, l.Len = utf8Len (lineChars l)) →
        edTwoLines.rr.caret ≤ sumLen edTwoLines.lines →
        lineStart edTwoLines.lines cl ≤ edTwoLines.rr.caret ∧
          cc = glyphsBeforeCaret edTwoLines.lines cl edTwoLines.rr.caret)) :=
  ⟨by decide, layoutCaret_safe_single_byte edTwoLines (by decide)⟩

theorem changeCheck_of_not_changed (e : Editor) (h : e.rr.changed = false) : changeCheck e = e := by
  obtain ⟨al, sl, sb, fo, rr, vs, ls, dm, so, cx, cs, ev⟩ := e
  obtain ⟨t, c, ch⟩ := rr
  simp only at h
  subst h
  simp [changeCheck, editBuffer.Changed]

/-- C9 (amended): on a focused editor whose change flag is clear, a
Return/Enter key without Shift when `Submit` is set appends a
`SubmitEvent` carrying the entire current text, changes nothing else
(inserting no newline) and abandons the remaining events of the frame;
with Shift held or `Submit` unset the key inserts a newline at the caret
and produces a `ChangeEvent` — provided the editor is not `SingleLine`
(a `SingleLine` editor strips the newline and inserts nothing). -/
theorem processKey_submit_and_newline (e : Editor) (rest : List KeyEvt) (name : KeyName)
    (shift : Bool) (hf : e.focused = true) (hch : e.rr.changed = false)
    (hn : name = KeyName.ret ∨ name = KeyName.enter) :
    (e.Submit = true →
      e.processKey (KeyEvt.keyev name false :: rest) =
        some { e with events := e.events ++ [EditorEvent.submit e.Text] }) ∧
    (e.SingleLine = false → (shift = true ∨ e.Submit = false) →
      e.processKey [KeyEvt.keyev name shift] =
        some { e with
               rr := { text := (splitBytes e.rr.text e.rr.caret).1 ++ '\n' ::
                         (splitBytes e.rr.text e.rr.caret).2,
                       caret := e.rr.caret + 1, changed := false },
               carXOff := 0, caretScroll := true,
               events := e.events ++ [EditorEvent.change] }) := by
  constructor
  · intro hs
    rw [Editor.processKey, changeCheck_of_not_changed e hch]
    rcases hn with h | h <;> subst h <;>
      simp [processKeyLoop, hf, hs, Editor.Text]
  · intro hsl hor
    rw [Editor.processKey, changeCheck_of_not_changed e hch]
    have hcond : ¬ (e.Submit = true ∧ shift = false) := by
      rcases hor with h | h <;> simp [h]
    rcases hn with h | h <;> subst h <;>
      simp [processKeyLoop, hf, hcond, Editor.command, Editor.append, Editor.prepend,
        editBuffer.prepend, hsl, changeCheck, editBuffer.Changed, utf8Len,
        (by decide : Char.utf8Size '\n' = 1)]

/-- C9 (counterexample): on a focused `SingleLine` editor with `Submit`
set, Shift+Return inserts nothing — the newline is stripped by `append` —
and no `ChangeEvent` is produced, while the claim promises a newline
insertion with a `ChangeEvent`. -/
theorem processKey_submit_counterexample :
    cexSubmitEd.focused = true ∧ cexSubmitEd.Submit = true ∧
    cexSubmitEd.processKey [KeyEvt.keyev KeyName.ret true] =
      some { cexSubmitEd with caretScroll := true } ∧
    (cexSubmitEd.processKey [KeyEvt.keyev KeyName.ret true]).map
      (fun e2 => (e2.rr.text, e2.events)) = some (cexSubmitEd.rr.text, []) := by decide

theorem processKey_submit_witness :
    edSubmitW.focused = true ∧ edSubmitW.rr.changed = false ∧ edSubmitW.Submit = true ∧
    edSubmitW.processKey [KeyEvt.keyev KeyName.ret false] =
      some { edSubmitW with events := edSubmitW.events ++ [EditorEvent.submit edSubmitW.Text] } :=
  ⟨rfl, rfl, rfl,
    (processKey_submit_and_newline edSubmitW [] KeyName.ret false rfl rfl (Or.inl rfl)).1 rfl⟩

theorem utf8Len_append (a b : List Char) : utf8Len (a ++ b) = utf8Len a + utf8Len b := by
  simp [utf8Len]

theorem utf8Len_pos_of_ne_nil (c : Char) (cs : List Char) : 0 < utf8Len (c :: cs) := by
  rw [utf8Len_cons]
  have := Char.utf8Size_pos c
  omega

theorem runeAt_boundary (A : List Char) (c : Char) (C : List Char) :
    runeAt (A ++ c :: C) (utf8Len A) = (c, c.utf8Size) := by
  induction A with
  | nil => simp [runeAt, utf8Len]
  | cons a A ih =>
    have ha := Char.utf8Size_pos a
    rw [List.cons_append, runeAt, if_neg (by rw [utf8Len_cons]; omega), utf8Len_cons]
    rw [show a.utf8Size + utf8Len A - a.utf8Size = utf8Len A by omega]
    exact ih

theorem runeBefore_boundary (A : List Char) (c : Char) (C : List Char) :
    runeBefore (A ++ c :: C) (utf8Len A + c.utf8Size) = (c, c.utf8Size) := by
  induction A with
  | nil =>
    have hc := Char.utf8Size_pos c
    simp only [List.nil_append, runeBefore, utf8Len, List.map_nil, List.sum_nil, Nat.zero_add]
    rw [if_neg (by omega), if_pos (le_refl _)]
  | cons a A ih =>
    have ha := Char.utf8Size_pos a
    have hc := Char.utf8Size_pos c
    rw [List.cons_append, runeBefore, if_neg (by rw [utf8Len_cons]; omega),
      if_neg (by rw [utf8Len_cons]; omega), utf8Len_cons]
    rw [show a.utf8Size + utf8Len A + c.utf8Size - a.utf8Size = utf8Len A + c.utf8Size by omega]
    exact ih

theorem stepBackN_inner (rr : editBuffer) (n : Nat) :
    stepBackN rr (n + 1) = stepBackN (caretBack1 rr) n := by
  induction n with
  | zero => rfl
  | succ n ih =>
    rw [stepBackN, ih, stepBackN]

theorem glyphBytes_append (a b : List Glyph) :
    glyphBytes (a ++ b) = glyphBytes a + glyphBytes b := by
  simp [glyphBytes, utf8Len]

theorem glyphBytes_cons (g : Glyph) (gs : List Glyph) :
    glyphBytes (g :: gs) = g.Rune.utf8Size + glyphBytes gs := by
  simp [glyphBytes, utf8Len]

theorem glyphBytes_nil : glyphBytes [] = 0 := rfl

theorem advSum_nil : advSum [] = 0 := rfl

theorem stepBackN_glyphs (rr : editBuffer) (A : List Char) (gs : List Glyph) (C : List Char)
    (htext : rr.text = A ++ gs.map Glyph.Rune ++ C)
    (hcaret : rr.caret = utf8Len A + glyphBytes gs) :
    stepBackN rr gs.length = { rr with caret := utf8Len A } := by
  induction gs using List.reverseRecOn generalizing C rr with
  | nil =>
    rw [glyphBytes_nil, Nat.add_zero] at hcaret
    obtain ⟨t, cr, ch⟩ := rr
    simp only at hcaret
    simp [stepBackN, hcaret]
  | append_singleton gs g ih =>
    have hrb : (runeBefore rr.text rr.caret).2 = g.Rune.utf8Size := by
      rw [htext, hcaret]
      rw [show A ++ List.map Glyph.Rune (gs ++ [g]) ++ C =
        (A ++ List.map Glyph.Rune gs) ++ g.Rune :: C by simp]
      rw [show utf8Len A + glyphBytes (gs ++ [g]) =
        utf8Len (A ++ List.map Glyph.Rune gs) + g.Rune.utf8Size by
          rw [utf8Len_append, glyphBytes_append, glyphBytes_cons, glyphBytes_nil]
          simp [glyphBytes]
          omega]
      rw [runeBefore_boundary]
    have hstep : caretBack1 rr = { rr with caret := utf8Len A + glyphBytes gs } := by
      rw [caretBack1, hrb, hcaret, glyphBytes_append, glyphBytes_cons, glyphBytes_nil]
      congr 1
      omega
    rw [List.length_append, List.length_singleton, stepBackN_inner, hstep]
    exact ih { rr with caret := utf8Len A + glyphBytes gs } (g.Rune :: C)
      (by rw [htext]; simp) rfl

theorem advSum_cons (g : Glyph) (gs : List Glyph) :
    advSum (g :: gs) = g.Advance + advSum gs := by
  simp [advSum]

theorem advSum_nonneg (gs : List Glyph) (h : ∀ g ∈ gs, 0 ≤ g.Advance) : 0 ≤ advSum gs :=
  List.sum_nonneg (by
    intro a ha
    obtain ⟨g, hg, rfl⟩ := List.mem_map.1 ha
    exact h g hg)

theorem dist_mono_right (c p s : Int) (hc : c ≤ p) (hs : 0 ≤ s) :
    |c - p| ≤ |c - (p + s)| := by
  rw [abs_of_nonpos (by omega), abs_of_nonpos (by omega)]
  omega

theorem dist_stop_second (c p a s : Int) (hlt : p < c) (hbr : p + a - c ≥ c - p) (hs : 0 ≤ s) :
    |c - p| ≤ |c - (p + a + s)| := by
  rw [abs_of_pos (by omega), abs_of_nonpos (by omega)]
  omega

theorem dist_continue (c p a : Int) (hlt : p < c) (ha : 0 ≤ a) (hbr : p + a - c < c - p) :
    |c - (p + a)| ≤ |c - p| := by
  rcases le_or_lt (p + a) c with h | h
  · rw [abs_of_nonneg (by omega), abs_of_pos (by omega)]
    omega
  · rw [abs_of_neg (by omega), abs_of_pos (by omega)]
    omega

theorem seekMove_spec (carX : Int) (gs : List Glyph) (p0 : Int) (rr : editBuffer)
    (A C : List Char)
    (htext : rr.text = A ++ gs.map Glyph.Rune ++ C)
    (hcaret : rr.caret = utf8Len A)
    (hadv : ∀ g ∈ gs, 0 ≤ g.Advance) :
    ∃ j ≤ gs.length,
      seekMove carX p0 rr gs =
        (p0 + advSum (gs.take j), { rr with caret := utf8Len A + glyphBytes (gs.take j) }) ∧
      ∀ i ≤ gs.length,
        |carX - (p0 + advSum (gs.take j))| ≤ |carX - (p0 + advSum (gs.take i))| := by
  induction gs generalizing p0 rr A with
  | nil =>
    refine ⟨0, le_refl _, ?_, ?_⟩
    · obtain ⟨t, cr, ch⟩ := rr
      simp only at hcaret
      simp [seekMove, advSum_nil, glyphBytes_nil, hcaret]
    · intro i hi
      simp only [List.length_nil, Nat.le_zero] at hi
      subst hi
      exact le_refl _
  | cons g gs ih =>
    by_cases h1 : p0 ≥ carX
    · refine ⟨0, Nat.zero_le _, ?_, ?_⟩
      · obtain ⟨t, cr, ch⟩ := rr
        simp only at hcaret
        simp [seekMove, h1, advSum_nil, glyphBytes_nil, hcaret]
      · intro i hi
        simp only [List.take_zero, advSum_nil, Int.add_zero]
        exact dist_mono_right carX p0 (advSum ((g :: gs).take i)) (by omega)
          (advSum_nonneg _ (fun g' hg' => hadv g' (List.take_subset _ _ hg')))
    · by_cases h2 : p0 + g.Advance - carX ≥ carX - p0
      · refine ⟨0, Nat.zero_le _, ?_, ?_⟩
        · obtain ⟨t, cr, ch⟩ := rr
          simp only at hcaret
          simp [seekMove, h1, h2, advSum_nil, glyphBytes_nil, hcaret]
        · intro i hi
          simp only [List.take_zero, advSum_nil, Int.add_zero]
          match i with
          | 0 => simp [advSum_nil]
          | i + 1 =>
            rw [List.take_succ_cons, advSum_cons, ← Int.add_assoc]
            exact dist_stop_second carX p0 g.Advance (advSum (gs.take i)) (by omega) h2
              (advSum_nonneg _ (fun g' hg' => hadv g' (by
                simp only [List.mem_cons]
                exact Or.inr (List.take_subset _ _ hg'))))
      · have hg0 : 0 ≤ g.Advance := hadv g (by simp)
        have hra : (runeAt rr.text rr.caret).2 = g.Rune.utf8Size := by
          rw [htext, hcaret]
          rw [show A ++ List.map Glyph.Rune (g :: gs) ++ C =
            A ++ g.Rune :: (List.map Glyph.Rune gs ++ C) by simp]
          rw [runeAt_boundary]
        have hstep : caretFwd1 rr = { rr with caret := utf8Len (A ++ [g.Rune]) } := by
          rw [caretFwd1, hra, hcaret, utf8Len_append,
            show utf8Len [g.Rune] = g.Rune.utf8Size by simp [utf8Len]]
        obtain ⟨j, hj, hres, hopt⟩ :=
          ih (p0 + g.Advance) (caretFwd1 rr) (A ++ [g.Rune])
            (by rw [hstep]; simp only; rw [htext]; simp) (by rw [hstep])
            (fun g' hg' => hadv g' (by simp [hg']))
        refine ⟨j + 1, by simpa using Nat.succ_le_succ hj, ?_, ?_⟩
        · rw [seekMove, if_neg h1, if_neg h2, hres, Prod.mk.injEq]
          rw [List.take_succ_cons, advSum_cons, glyphBytes_cons]
          refine ⟨by omega, ?_⟩
          show ({ rr with caret := utf8Len (A ++ [g.Rune]) + glyphBytes (gs.take j) } :
            editBuffer) = _
          rw [utf8Len_append, show utf8Len [g.Rune] = g.Rune.utf8Size by simp [utf8Len]]
          congr 1
          omega
        · intro i hi
          match i with
          | 0 =>
            simp only [List.take_zero, advSum_nil, Int.add_zero]
            calc |carX - (p0 + advSum ((g :: gs).take (j + 1)))|
                = |carX - (p0 + g.Advance + advSum (gs.take j))| := by
                  rw [List.take_succ_cons, advSum_cons, Int.add_assoc]
              _ ≤ |carX - (p0 + g.Advance + advSum (gs.take 0))| := hopt 0 (Nat.zero_le _)
              _ = |carX - (p0 + g.Advance)| := by simp [advSum_nil]
              _ ≤ |carX - p0| := dist_continue carX p0 g.Advance (by omega) hg0 (by omega)
          | i + 1 =>
            rw [List.take_succ_cons, List.take_succ_cons, advSum_cons, advSum_cons,
              ← Int.add_assoc, ← Int.add_assoc]
            exact hopt i (by simpa using hi)

theorem sumLen_append (a b : List Line) : sumLen (a ++ b) = sumLen a + sumLen b := by
  simp [sumLen]

theorem linesText_append (a b : List Line) :
    linesText (a ++ b) = linesText a ++ linesText b := by
  simp [linesText]

theorem linesText_cons (l : Line) (ls : List Line) :
    linesText (l :: ls) = lineChars l ++ linesText ls := by
  simp [linesText]

theorem sumLen_eq_utf8Len (ls : List Line)
    (h : ∀ l ∈ ls, l.Len = utf8Len (lineChars l)) :
    sumLen ls = utf8Len (linesText ls) := by
  induction ls with
  | nil => rfl
  | cons l ls ih =>
    rw [sumLen_cons, linesText_cons, utf8Len_append, h l (by simp),
      ih (fun x hx => h x (by simp [hx]))]

theorem lineStart_eq_utf8Len (ls : List Line) (k : Nat)
    (h : ∀ l ∈ ls, l.Len = utf8Len (lineChars l)) :
    lineStart ls k = utf8Len (linesText (ls.take k)) := by
  rw [lineStart]
  exact sumLen_eq_utf8Len _ (fun x hx => h x (List.take_subset _ _ hx))

theorem get?_some_lt (ls : List Line) (k : Nat) (l : Line) (h : ls.get? k = some l) :
    k < ls.length := by
  by_contra hc
  rw [List.get?_eq_none.2 (by omega)] at h
  exact Option.noConfusion h

theorem lines_decomp (ls : List Line) (k : Nat) (l : Line) (h : ls.get? k = some l) :
    ls = ls.take k ++ l :: ls.drop (k + 1) := by
  have hk : k < ls.length := get?_some_lt ls k l h
  have h2 : ls[k] = l := by
    have h3 : ls[k]? = some l := by rw [← List.get?_eq_getElem?]; exact h
    rw [List.getElem?_eq_getElem hk] at h3
    exact Option.some.inj h3
  conv_lhs => rw [← List.take_append_drop k ls, List.drop_eq_getElem_cons hk, h2]

theorem lineStart_transfer (ls : List Line) (k m : Nat) (hk : k ≤ m) (_hm : m ≤ ls.length) :
    lineStart ls k + sumLen ((ls.drop k).take (m - k)) = lineStart ls m := by
  have hsplit : ls.take m = ls.take k ++ (ls.drop k).take (m - k) := by
    conv_lhs => rw [show m = k + (m - k) by omega]
    exact List.take_add ls k (m - k)
  rw [lineStart, lineStart, hsplit, sumLen_append]

theorem clampLine_lt (t : Int) (n : Nat) (h : 1 ≤ n) : clampLine t n < n := by
  unfold clampLine
  split_ifs <;> omega

theorem lineChars_split (l : Line) (k : Nat) :
    lineChars l = (l.Layout.take k).map Glyph.Rune ++ (l.Layout.drop k).map Glyph.Rune := by
  rw [← List.map_append, List.take_append_drop]
  rfl

theorem transferCaret_start (ls : List Line) (txt : List Char) (ch : Bool) (cl cl2 : Nat)
    (hcl : cl ≤ ls.length) (hcl2 : cl2 ≤ ls.length) :
    transferCaret ls { text := txt, caret := lineStart ls cl, changed := ch } cl cl2 =
      { text := txt, caret := lineStart ls cl2, changed := ch } := by
  unfold transferCaret
  split_ifs with h1 h2
  · simp only [editBuffer.mk.injEq, true_and, and_true]
    exact lineStart_transfer ls cl cl2 (by omega) hcl2
  · simp only [editBuffer.mk.injEq, true_and, and_true]
    have := lineStart_transfer ls cl2 cl (by omega) hcl
    omega
  · simp only [editBuffer.mk.injEq, true_and, and_true]
    have : cl2 = cl := by omega
    rw [this]

theorem moveToLine_core (e : Editor) (carX t : Int) (cl cc : Nat) (x y : Int) (l l2 : Line)
    (hlc : e.layoutCaret = some (cl, cc, x, y))
    (hget : e.lines.get? cl = some l)
    (hget2 : e.lines.get? (clampLine t e.lines.length) = some l2)
    (htext : e.rr.text = linesText e.lines)
    (hlen : ∀ l' ∈ e.lines, l'.Len = utf8Len (lineChars l'))
    (hcc : cc ≤ l.Layout.length)
    (hcaret : e.rr.caret = lineStart e.lines cl + glyphBytes (l.Layout.take cc))
    (hadv : ∀ g ∈ l2.Layout, 0 ≤ g.Advance) :
    ∃ j ≤ l2.Layout.length -
        (if clampLine t e.lines.length < e.lines.length - 1 then 1 else 0),
      e.moveToLine carX t = some
        (carX - (align e.Alignment l2.Width e.viewSize.X + advSum (l2.Layout.take j)),
         { e with
           rr := { e.rr with
                   caret := lineStart e.lines (clampLine t e.lines.length) +
                     glyphBytes (l2.Layout.take j) } }) ∧
      ∀ i ≤ l2.Layout.length -
          (if clampLine t e.lines.length < e.lines.length - 1 then 1 else 0),
        |carX - (align e.Alignment l2.Width e.viewSize.X + advSum (l2.Layout.take j))| ≤
          |carX - (align e.Alignment l2.Width e.viewSize.X + advSum (l2.Layout.take i))| := by
  have hcl : cl < e.lines.length := get?_some_lt _ _ _ hget
  have hcl2 : clampLine t e.lines.length < e.lines.length := clampLine_lt _ _ (by omega)
  have hgs2len : (l2.Layout.take (l2.Layout.length -
      (if clampLine t e.lines.length < e.lines.length - 1 then 1 else 0))).length =
      l2.Layout.length -
        (if clampLine t e.lines.length < e.lines.length - 1 then 1 else 0) := by
    rw [List.length_take]
    omega
  have hccEq : (l.Layout.take cc).length = cc := by
    rw [List.length_take]
    omega
  have hls1 : utf8Len (linesText (e.lines.take cl)) = lineStart e.lines cl :=
    (lineStart_eq_utf8Len e.lines cl hlen).symm
  have hls2 : utf8Len (linesText (e.lines.take (clampLine t e.lines.length))) =
      lineStart e.lines (clampLine t e.lines.length) :=
    (lineStart_eq_utf8Len e.lines (clampLine t e.lines.length) hlen).symm
  have hdec1 : e.rr.text = linesText (e.lines.take cl) ++ (l.Layout.take cc).map Glyph.Rune ++
      ((l.Layout.drop cc).map Glyph.Rune ++ linesText (e.lines.drop (cl + 1))) := by
    rw [htext]
    conv_lhs => rw [lines_decomp e.lines cl l hget]
    rw [linesText_append, linesText_cons, lineChars_split l cc]
    simp only [List.append_assoc]
  have hcar1 : e.rr.caret =
      utf8Len (linesText (e.lines.take cl)) + glyphBytes (l.Layout.take cc) := by
    rw [hcaret, lineStart_eq_utf8Len e.lines cl hlen]
  have hstep1 : stepBackN e.rr cc = { e.rr with caret := lineStart e.lines cl } := by
    conv_lhs => rw [show cc = (l.Layout.take cc).length from hccEq.symm]
    rw [stepBackN_glyphs e.rr _ _ _ hdec1 hcar1, hls1]
  have htrans : transferCaret e.lines ({ e.rr with caret := lineStart e.lines cl })
      cl (clampLine t e.lines.length) =
      { e.rr with caret := lineStart e.lines (clampLine t e.lines.length) } :=
    transferCaret_start e.lines e.rr.text e.rr.changed cl (clampLine t e.lines.length)
      (by omega) (by omega)
  have hdec2 : ({ e.rr with
      caret := lineStart e.lines (clampLine t e.lines.length) } : editBuffer).text =
      linesText (e.lines.take (clampLine t e.lines.length)) ++
      ((l2.Layout.take (l2.Layout.length -
        (if clampLine t e.lines.length < e.lines.length - 1 then 1 else 0))).map
          Glyph.Rune) ++
      ((l2.Layout.drop (l2.Layout.length -
        (if clampLine t e.lines.length < e.lines.length - 1 then 1 else 0))).map
          Glyph.Rune ++
        linesText (e.lines.drop (clampLine t e.lines.length + 1))) := by
    show e.rr.text = _
    rw [htext]
    conv_lhs => rw [lines_decomp e.lines (clampLine t e.lines.length) l2 hget2]
    rw [linesText_append, linesText_cons,
      lineChars_split l2 (l2.Layout.length -
        (if clampLine t e.lines.length < e.lines.length - 1 then 1 else 0))]
    simp only [List.append_assoc]
  obtain ⟨j, hj, hres, hopt⟩ := seekMove_spec carX
    (l2.Layout.take (l2.Layout.length -
      (if clampLine t e.lines.length < e.lines.length - 1 then 1 else 0)))
    (align e.Alignment l2.Width e.viewSize.X)
    { e.rr with caret := lineStart e.lines (clampLine t e.lines.length) }
    (linesText (e.lines.take (clampLine t e.lines.length))) _ hdec2
    (by show lineStart e.lines (clampLine t e.lines.length) = _; rw [hls2])
    (fun g hg => hadv g (List.take_subset _ _ hg))
  rw [hgs2len] at hj
  have htakej : ∀ i ≤ l2.Layout.length -
      (if clampLine t e.lines.length < e.lines.length - 1 then 1 else 0),
      (l2.Layout.take (l2.Layout.length -
        (if clampLine t e.lines.length < e.lines.length - 1 then 1 else 0))).take i =
      l2.Layout.take i := by
    intro i hi
    rw [List.take_take]
    congr 1
    omega
  refine ⟨j, hj, ?_, ?_⟩
  · rw [Editor.moveToLine, hlc]
    simp only [Option.bind]
    rw [hstep1, htrans, hget2]
    simp only [Option.map]
    rw [hres]
    simp only
    rw [htakej j hj, Option.some.injEq, Prod.mk.injEq]
    refine ⟨rfl, ?_⟩
    rw [hls2]
  · intro i hi
    rw [← htakej j hj, ← htakej i hi]
    exact hopt i (by omega)

/-- C2: for every laid-out editor with at least one line (laid-out:
the buffer text matches the lines, the line byte lengths match their
glyphs, the caret sits at a glyph boundary of the line `layoutCaret`
assigns it, and glyph advances are nonnegative), `moveToLine` clamps the
target index into `[0, len(lines)-1]`, moves the caret onto that line —
to the glyph boundary `j` past the line start, never beyond the last rune
of a non-last line — whose horizontal position is closest to the
requested `carX`, and returns `carX` minus the horizontal position
actually reached. -/
theorem moveToLine_clamps_closest_residual (e : Editor) (carX t : Int) (cl cc : Nat)
    (x y : Int) (l l2 : Line)
    (hlc : e.layoutCaret = some (cl, cc, x, y))
    (hget : e.lines.get? cl = some l)
    (hget2 : e.lines.get? (clampLine t e.lines.length) = some l2)
    (htext : e.rr.text = linesText e.lines)
    (hlen : ∀ l' ∈ e.lines, l'.Len = utf8Len (lineChars l'))
    (hcc : cc ≤ l.Layout.length)
    (hcaret : e.rr.caret = lineStart e.lines cl + glyphBytes (l.Layout.take cc))
    (hadv : ∀ g ∈ l2.Layout, 0 ≤ g.Advance) :
    ∃ j ≤ l2.Layout.length -
        (if clampLine t e.lines.length < e.lines.length - 1 then 1 else 0),
      e.moveToLine carX t = some
        (carX - (align e.Alignment l2.Width e.viewSize.X + advSum (l2.Layout.take j)),
         { e with
           rr := { e.rr with
                   caret := lineStart e.lines (clampLine t e.lines.length) +
                     glyphBytes (l2.Layout.take j) } }) ∧
      ∀ i ≤ l2.Layout.length -
          (if clampLine t e.lines.length < e.lines.length - 1 then 1 else 0),
        |carX - (align e.Alignment l2.Width e.viewSize.X + advSum (l2.Layout.take j))| ≤
          |carX - (align e.Alignment l2.Width e.viewSize.X + advSum (l2.Layout.take i))| :=
  moveToLine_core e carX t cl cc x y l l2 hlc hget hget2 htext hlen hcc hcaret hadv

theorem moveToLine_clamps_closest_residual_witness :
    (edTwoLines.layoutCaret = some (1, 1, 64, 3) ∧
      edTwoLines.lines.get? 1 = some (asciiLine ['c', 'd']) ∧
      edTwoLines.lines.get? (clampLine 0 edTwoLines.lines.length) =
        some (asciiLine ['a', 'b']) ∧
      edTwoLines.rr.text = linesText edTwoLines.lines ∧
      edTwoLines.rr.caret = lineStart edTwoLines.lines 1 +
        glyphBytes ((asciiLine ['c', 'd']).Layout.take 1)) ∧
    (∃ j ≤ (asciiLine ['a', 'b']).Layout.length -
        (if clampLine 0 edTwoLines.lines.length < edTwoLines.lines.length - 1 then 1 else 0),
      edTwoLines.moveToLine 999 0 = some
        (999 - (align edTwoLines.Alignment (asciiLine ['a', 'b']).Width edTwoLines.viewSize.X +
           advSum ((asciiLine ['a', 'b']).Layout.take j)),
         { edTwoLines with
           rr := { edTwoLines.rr with
                   caret := lineStart edTwoLines.lines (clampLine 0 edTwoLines.lines.length) +
                     glyphBytes ((asciiLine ['a', 'b']).Layout.take j) } }) ∧
      ∀ i ≤ (asciiLine ['a', 'b']).Layout.length -
          (if clampLine 0 edTwoLines.lines.length < edTwoLines.lines.length - 1 then 1 else 0),
        |999 - (align edTwoLines.Alignment (asciiLine ['a', 'b']).Width edTwoLines.viewSize.X +
            advSum ((asciiLine ['a', 'b']).Layout.take j))| ≤
          |999 - (align edTwoLines.Alignment (asciiLine ['a', 'b']).Width edTwoLines.viewSize.X +
            advSum ((asciiLine ['a', 'b']).Layout.take i))|) :=
  ⟨⟨by decide, by decide, by decide, by decide, by decide⟩,
    moveToLine_clamps_closest_residual edTwoLines 999 0 1 1 64 3
      (asciiLine ['c', 'd']) (asciiLine ['a', 'b']) (by decide) (by decide) (by decide)
      (by decide) (by decide) (by decide) (by decide) (by decide)⟩

theorem coordLine_findIdx (ty : Int) (pd : Int) (y : Int) (ls : List Line) :
    coordLine ty pd y ls = (lineBottoms pd y ls).findIdx (fun b => b ≥ ty) := by
  induction ls generalizing pd y with
  | nil => rfl
  | cons l rest ih =>
    rw [coordLine, lineBottoms, List.findIdx_cons]
    by_cases h : y + fixCeil (pd + l.Ascent) + fixCeil l.Descent ≥ ty
    · simp [h]
    · rw [if_neg h, ih]
      have hd : (decide (y + fixCeil (pd + l.Ascent) + fixCeil l.Descent ≥ ty)) = false := by
        simpa using h
      rw [hd, Bool.cond_false]
      omega

/-- C4: `moveCoord` selects the first line whose bottom edge (cumulative
baseline plus ceiled descent) reaches `pos.Y + scrollOff.Y` — the index
past the last line when none qualifies, which the `moveToLine` clamp turns
into the last line — and moves the caret onto that line to the glyph
boundary closest to the horizontal position `pos.X + scrollOff.X`, under
the same laid-out-editor hypotheses as `moveToLine`. -/
theorem moveCoord_selects_line_closest (e : Editor) (pos : Point) (cl cc : Nat)
    (x y : Int) (l l2 : Line)
    (hlc : e.layoutCaret = some (cl, cc, x, y))
    (hget : e.lines.get? cl = some l)
    (hget2 : e.lines.get? (clampLine (coordLine (pos.Y + e.scrollOff.Y) 0 0 e.lines : Int)
      e.lines.length) = some l2)
    (htext : e.rr.text = linesText e.lines)
    (hlen : ∀ l' ∈ e.lines, l'.Len = utf8Len (lineChars l'))
    (hcc : cc ≤ l.Layout.length)
    (hcaret : e.rr.caret = lineStart e.lines cl + glyphBytes (l.Layout.take cc))
    (hadv : ∀ g ∈ l2.Layout, 0 ≤ g.Advance) :
    coordLine (pos.Y + e.scrollOff.Y) 0 0 e.lines =
      (lineBottoms 0 0 e.lines).findIdx (fun b => b ≥ pos.Y + e.scrollOff.Y) ∧
    ∃ j ≤ l2.Layout.length -
        (if clampLine (coordLine (pos.Y + e.scrollOff.Y) 0 0 e.lines : Int) e.lines.length <
            e.lines.length - 1 then 1 else 0),
      e.moveCoord pos = some
        { e with
          rr := { e.rr with
                  caret := lineStart e.lines
                      (clampLine (coordLine (pos.Y + e.scrollOff.Y) 0 0 e.lines : Int)
                        e.lines.length) +
                    glyphBytes (l2.Layout.take j) } } ∧
      ∀ i ≤ l2.Layout.length -
          (if clampLine (coordLine (pos.Y + e.scrollOff.Y) 0 0 e.lines : Int) e.lines.length <
              e.lines.length - 1 then 1 else 0),
        |fixI (pos.X + e.scrollOff.X) -
            (align e.Alignment l2.Width e.viewSize.X + advSum (l2.Layout.take j))| ≤
          |fixI (pos.X + e.scrollOff.X) -
            (align e.Alignment l2.Width e.viewSize.X + advSum (l2.Layout.take i))| := by
  obtain ⟨j, hj, hres, hopt⟩ := moveToLine_core e (fixI (pos.X + e.scrollOff.X))
    (coordLine (pos.Y + e.scrollOff.Y) 0 0 e.lines : Int) cl cc x y l l2
    hlc hget hget2 htext hlen hcc hcaret hadv
  refine ⟨coordLine_findIdx _ 0 0 e.lines, j, hj, ?_, hopt⟩
  rw [Editor.moveCoord, hres]
  rfl

theorem moveCoord_selects_line_closest_witness :
    edTwoLines.lines.get? (clampLine
        (coordLine ((0:Int) + edTwoLines.scrollOff.Y) 0 0 edTwoLines.lines : Int)
        edTwoLines.lines.length) = some (asciiLine ['a', 'b']) ∧
    coordLine ((0:Int) + edTwoLines.scrollOff.Y) 0 0 edTwoLines.lines =
      (lineBottoms 0 0 edTwoLines.lines).findIdx
        (fun b => b ≥ (0:Int) + edTwoLines.scrollOff.Y) ∧
    ∃ j ≤ (asciiLine ['a', 'b']).Layout.length -
        (if clampLine (coordLine ((0:Int) + edTwoLines.scrollOff.Y) 0 0 edTwoLines.lines : Int)
            edTwoLines.lines.length < edTwoLines.lines.length - 1 then 1 else 0),
      edTwoLines.moveCoord { X := 0, Y := 0 } = some
        { edTwoLines with
          rr := { edTwoLines.rr with
                  caret := lineStart edTwoLines.lines
                      (clampLine
                        (coordLine ((0:Int) + edTwoLines.scrollOff.Y) 0 0 edTwoLines.lines : Int)
                        edTwoLines.lines.length) +
                    glyphBytes ((asciiLine ['a', 'b']).Layout.take j) } } :=
  ⟨by decide, (moveCoord_selects_line_closest edTwoLines { X := 0, Y := 0 } 1 1 64 3
      (asciiLine ['c', 'd']) (asciiLine ['a', 'b']) (by decide) (by decide) (by decide)
      (by decide) (by decide) (by decide) (by decide) (by decide)).1,
    (moveCoord_selects_line_closest edTwoLines { X := 0, Y := 0 } 1 1 64 3
      (asciiLine ['c', 'd']) (asciiLine ['a', 'b']) (by decide) (by decide) (by decide)
      (by decide) (by decide) (by decide) (by decide) (by decide)).2.elim
      (fun j hj => ⟨j, hj.1, hj.2.1⟩)⟩

theorem fixCeil_mono (a b : Int) (h : a ≤ b) : fixCeil a ≤ fixCeil b := by
  unfold fixCeil
  omega

theorem fixCeil_nonneg (a : Int) (h : 0 ≤ a) : 0 ≤ fixCeil a := by
  unfold fixCeil
  omega

theorem totalH_single (pd : Int) (l : Line) :
    totalH pd [l] = fixCeil (pd + l.Ascent) + fixCeil l.Descent := rfl

theorem totalH_cons₂ (pd : Int) (l r : Line) (rest : List Line) :
    totalH pd (l :: r :: rest) = fixCeil (pd + l.Ascent) + totalH l.Descent (r :: rest) := rfl

theorem totalH_nonneg (pd : Int) (ls : List Line) (hpd : 0 ≤ pd)
    (hmet : ∀ l ∈ ls, 0 ≤ l.Ascent ∧ 0 ≤ l.Descent) : 0 ≤ totalH pd ls := by
  induction ls generalizing pd with
  | nil => simp [totalH]
  | cons l rest ih =>
    have h1 := hmet l (by simp)
    have h2 : 0 ≤ fixCeil (pd + l.Ascent) := fixCeil_nonneg _ (by omega)
    cases rest with
    | nil =>
      rw [totalH_single]
      have := fixCeil_nonneg l.Descent (by omega)
      omega
    | cons r rrest =>
      rw [totalH_cons₂]
      have := ih l.Descent (by omega) (fun x hx => hmet x (by simp [hx]))
      omega

theorem totalH_ge_fixCeil (pd : Int) (ls : List Line) (_hpd : 0 ≤ pd) (hne : ls ≠ [])
    (hmet : ∀ l ∈ ls, 0 ≤ l.Ascent ∧ 0 ≤ l.Descent) : fixCeil pd ≤ totalH pd ls := by
  cases ls with
  | nil => exact absurd rfl hne
  | cons l rest =>
    have h1 := hmet l (by simp)
    have h2 : fixCeil pd ≤ fixCeil (pd + l.Ascent) := fixCeil_mono _ _ (by omega)
    cases rest with
    | nil =>
      rw [totalH_single]
      have := fixCeil_nonneg l.Descent (by omega)
      omega
    | cons r rrest =>
      rw [totalH_cons₂]
      have := totalH_nonneg l.Descent (r :: rrest) (by omega)
        (fun x hx => hmet x (by simp [hx]))
      omega

theorem caretWalk_y_lower (caret : Nat) (ls : List Line) (idx : Nat) (pd : Int) (y0 : Int)
    (hpd : 0 ≤ pd) (hmet : ∀ l ∈ ls, 0 ≤ l.Ascent ∧ 0 ≤ l.Descent) :
    ∀ cl cc x yr l, caretWalk caret idx pd y0 ls = some (cl, cc, x, yr) →
      ls.get? cl = some l → y0 + fixCeil l.Ascent ≤ yr := by
  induction ls generalizing idx pd y0 with
  | nil => intro cl cc x yr l hw; simp [caretWalk] at hw
  | cons l0 rest ih =>
    intro cl cc x yr l hw hget
    have h0 := hmet l0 (by simp)
    rw [caretWalk] at hw
    by_cases hc : rest.isEmpty || decide (caret < idx + l0.Layout.length)
    · rw [if_pos hc] at hw
      simp only [Option.some.injEq, Prod.mk.injEq] at hw
      obtain ⟨h1, _, _, h4⟩ := hw
      subst h1
      simp only [List.get?_cons_zero, Option.some.injEq] at hget
      rw [← hget, ← h4]
      have : fixCeil l0.Ascent ≤ fixCeil (pd + l0.Ascent) := fixCeil_mono _ _ (by omega)
      omega
    · rw [if_neg hc] at hw
      cases hw2 : caretWalk caret (idx + l0.Len) l0.Descent (y0 + fixCeil (pd + l0.Ascent)) rest with
      | none => rw [hw2] at hw; exact absurd hw (by simp)
      | some r =>
        rw [hw2] at hw
        simp only [Option.map, Option.some.injEq] at hw
        obtain ⟨h1, h2⟩ : r.1 + 1 = cl ∧ r.2 = (cc, x, yr) :=
          ⟨congrArg Prod.fst hw, congrArg Prod.snd hw⟩
        subst h1
        simp only [List.get?_cons_succ] at hget
        have hy : r.2.2.2 = yr := by rw [h2]
        have hstep : 0 ≤ fixCeil (pd + l0.Ascent) := fixCeil_nonneg _ (by omega)
        have hih := ih (idx + l0.Len) l0.Descent (y0 + fixCeil (pd + l0.Ascent)) (by omega)
          (fun x hx => hmet x (by simp [hx])) r.1 r.2.1 r.2.2.1 r.2.2.2 l
          (by rw [hw2]) hget
        rw [hy] at hih
        omega

theorem caretWalk_y_upper (caret : Nat) (ls : List Line) (idx : Nat) (pd : Int) (y0 : Int)
    (hpd : 0 ≤ pd) (hmet : ∀ l ∈ ls, 0 ≤ l.Ascent ∧ 0 ≤ l.Descent) :
    ∀ cl cc x yr l, caretWalk caret idx pd y0 ls = some (cl, cc, x, yr) →
      ls.get? cl = some l → yr + fixCeil l.Descent ≤ y0 + totalH pd ls := by
  induction ls generalizing idx pd y0 with
  | nil => intro cl cc x yr l hw; simp [caretWalk] at hw
  | cons l0 rest ih =>
    intro cl cc x yr l hw hget
    have h0 := hmet l0 (by simp)
    rw [caretWalk] at hw
    by_cases hc : rest.isEmpty || decide (caret < idx + l0.Layout.length)
    · rw [if_pos hc] at hw
      simp only [Option.some.injEq, Prod.mk.injEq] at hw
      obtain ⟨h1, _, _, h4⟩ := hw
      subst h1
      simp only [List.get?_cons_zero, Option.some.injEq] at hget
      rw [← hget, ← h4]
      cases rest with
      | nil =>
        rw [totalH_single]
        omega
      | cons r rrest =>
        rw [totalH_cons₂]
        have := totalH_ge_fixCeil l0.Descent (r :: rrest) (by omega) (by simp)
          (fun x hx => hmet x (by simp [hx]))
        omega
    · rw [if_neg hc] at hw
      cases hw2 : caretWalk caret (idx + l0.Len) l0.Descent (y0 + fixCeil (pd + l0.Ascent)) rest with
      | none => rw [hw2] at hw; exact absurd hw (by simp)
      | some r =>
        rw [hw2] at hw
        simp only [Option.map, Option.some.injEq] at hw
        obtain ⟨h1, h2⟩ : r.1 + 1 = cl ∧ r.2 = (cc, x, yr) :=
          ⟨congrArg Prod.fst hw, congrArg Prod.snd hw⟩
        subst h1
        simp only [List.get?_cons_succ] at hget
        have hy : r.2.2.2 = yr := by rw [h2]
        have hih := ih (idx + l0.Len) l0.Descent (y0 + fixCeil (pd + l0.Ascent)) (by omega)
          (fun x hx => hmet x (by simp [hx])) r.1 r.2.1 r.2.2.1 r.2.2.2 l
          (by rw [hw2]) hget
        rw [hy] at hih
        cases rest with
        | nil => simp at hget
        | cons r2 rrest2 =>
          rw [totalH_cons₂]
          omega

theorem layoutCaret_inv (e : Editor) (cl cc : Nat) (x y : Int)
    (hlc : e.layoutCaret = some (cl, cc, x, y)) :
    ∃ x0 l, caretWalk e.rr.caret 0 0 0 e.lines = some (cl, cc, x0, y) ∧
      e.lines.get? cl = some l ∧ x = x0 + align e.Alignment l.Width e.viewSize.X := by
  rw [Editor.layoutCaret] at hlc
  cases hw : caretWalk e.rr.caret 0 0 0 e.lines with
  | none => rw [hw] at hlc; exact absurd hlc (by simp)
  | some r =>
    rw [hw] at hlc
    simp only [Option.bind] at hlc
    cases hg : e.lines.get? r.1 with
    | none => rw [hg] at hlc; exact absurd hlc (by simp [Option.map])
    | some l' =>
      rw [hg] at hlc
      simp only [Option.map, Option.some.injEq, Prod.mk.injEq] at hlc
      obtain ⟨h1, h2, h3, h4⟩ := hlc
      subst h1
      subst h2
      subst h4
      exact ⟨r.2.2.1, l', rfl, hg, h3.symm⟩

theorem scrollAdjust_visible (lo hi view s t1 t2 : Int)
    (h1 : lo ≤ t1) (h2 : t2 ≤ max lo hi + view) (h3 : t2 - t1 ≤ view)
    (hs1 : lo ≤ s) (hs2 : s ≤ max lo hi) :
    max lo (min (s + (if t1 - s < 0 then t1 - s
        else if t2 - (s + view) > 0 then t2 - (s + view) else 0)) hi) ≤ t1 ∧
    t2 ≤ max lo (min (s + (if t1 - s < 0 then t1 - s
        else if t2 - (s + view) > 0 then t2 - (s + view) else 0)) hi) + view := by
  split_ifs <;> constructor <;> omega

theorem scrollToCaret_eq (e : Editor) (cl cc : Nat) (x y : Int) (l : Line)
    (hlc : e.layoutCaret = some (cl, cc, x, y)) (hget : e.lines.get? cl = some l) :
    e.scrollToCaret = some (
      if e.SingleLine then
        e.scrollRel (if fixFloor x - e.scrollOff.X < 0 then fixFloor x - e.scrollOff.X
          else if fixCeil x - (e.scrollOff.X + e.viewSize.X) > 0 then
            fixCeil x - (e.scrollOff.X + e.viewSize.X) else 0) 0
      else
        e.scrollRel 0 (if (y - fixCeil l.Ascent) - e.scrollOff.Y < 0 then
            (y - fixCeil l.Ascent) - e.scrollOff.Y
          else if (y + fixCeil l.Descent) - (e.scrollOff.Y + e.viewSize.Y) > 0 then
            (y + fixCeil l.Descent) - (e.scrollOff.Y + e.viewSize.Y) else 0)) := by
  rw [Editor.scrollToCaret, hlc]
  simp only [Option.bind]
  rw [hget]
  simp only [Option.map]

/-- C3 (amended): when `caretScroll` is set, the next `Layout` (clamping
scroll adjustment followed by `scrollToCaret`) makes the caret visible —
in multi-line mode, provided the line metrics are nonnegative, `dims`
matches the laid-out lines, and the caret line's ceiled height does not
exceed the viewport height, the caret span
`[y - ascent.Ceil, y + descent.Ceil]` lies within
`[scrollOff.Y, scrollOff.Y + viewSize.Y]`; in `SingleLine` mode this
additionally requires the caret's pixel span and position to fit the
scrollable range (`b.Min.X ≤ x.Floor`,
`x.Ceil ≤ max(b.Min.X, b.Max.X) + viewSize.X` and
`x.Ceil - x.Floor ≤ viewSize.X`), and then
`scrollOff.X ≤ x.Floor ∧ x.Ceil ≤ scrollOff.X + viewSize.X`. -/
theorem layoutScroll_caret_visible (e : Editor) (cl cc : Nat) (x y : Int) (l : Line)
    (hlc : e.layoutCaret = some (cl, cc, x, y))
    (hget : e.lines.get? cl = some l)
    (hcs : e.caretScroll = true)
    (hmet : ∀ l' ∈ e.lines, 0 ≤ l'.Ascent ∧ 0 ≤ l'.Descent) :
    ∃ e2, e.layoutScroll = some e2 ∧
      (e.SingleLine = false →
        e.dims.Size.Y = (linesDimens e.lines).Size.Y →
        fixCeil l.Ascent + fixCeil l.Descent ≤ e.viewSize.Y →
        0 ≤ e.viewSize.Y →
        e2.scrollOff.Y ≤ y - fixCeil l.Ascent ∧
          y + fixCeil l.Descent ≤ e2.scrollOff.Y + e.viewSize.Y) ∧
      (e.SingleLine = true →
        e.scrollBounds.Min.X ≤ fixFloor x →
        fixCeil x ≤ max e.scrollBounds.Min.X e.scrollBounds.Max.X + e.viewSize.X →
        fixCeil x - fixFloor x ≤ e.viewSize.X →
        e2.scrollOff.X ≤ fixFloor x ∧ fixCeil x ≤ e2.scrollOff.X + e.viewSize.X) := by
  have hA : ({ e.scrollRel 0 0 with caretScroll := false } : Editor).layoutCaret =
      e.layoutCaret := rfl
  have hB : ({ e.scrollRel 0 0 with caretScroll := false } : Editor).lines = e.lines := rfl
  have hC : ({ e.scrollRel 0 0 with caretScroll := false } : Editor).scrollBounds =
      e.scrollBounds := rfl
  have hD : ({ e.scrollRel 0 0 with caretScroll := false } : Editor).viewSize =
      e.viewSize := rfl
  have hE : ({ e.scrollRel 0 0 with caretScroll := false } : Editor).SingleLine =
      e.SingleLine := rfl
  have hFX : ({ e.scrollRel 0 0 with caretScroll := false } : Editor).scrollOff.X =
      max e.scrollBounds.Min.X (min e.scrollOff.X e.scrollBounds.Max.X) := by
    show (e.scrollRel 0 0).scrollOff.X = _
    rw [Editor.scrollRel, scrollAbs_scrollOff]
    simp
  have hFY : ({ e.scrollRel 0 0 with caretScroll := false } : Editor).scrollOff.Y =
      max e.scrollBounds.Min.Y (min e.scrollOff.Y e.scrollBounds.Max.Y) := by
    show (e.scrollRel 0 0).scrollOff.Y = _
    rw [Editor.scrollRel, scrollAbs_scrollOff]
    simp
  have hstc := scrollToCaret_eq ({ e.scrollRel 0 0 with caretScroll := false } : Editor)
    cl cc x y l (hA.trans hlc) (hB ▸ hget)
  rw [hD, hE, hFX, hFY] at hstc
  have hls : e.layoutScroll =
      ({ e.scrollRel 0 0 with caretScroll := false } : Editor).scrollToCaret := by
    rw [Editor.layoutScroll]
    show (if (e.scrollRel 0 0).caretScroll = true then
        ({ e.scrollRel 0 0 with caretScroll := false } : Editor).scrollToCaret
      else some (e.scrollRel 0 0)) = _
    rw [if_pos (show (e.scrollRel 0 0).caretScroll = true from hcs)]
  rw [hls, hstc]
  refine ⟨_, rfl, ?_, ?_⟩
  · intro hb hdims hh hv
    rw [hb]
    simp only [Bool.false_eq_true, if_false]
    obtain ⟨x0, l'', hw, hget'', hxeq⟩ := layoutCaret_inv e cl cc x y hlc
    have hl : l'' = l := Option.some.inj (hget''.symm.trans hget)
    subst hl
    have hlow := caretWalk_y_lower e.rr.caret e.lines 0 0 0 (le_refl 0) hmet
      cl cc x0 y l'' hw hget''
    have hupp := caretWalk_y_upper e.rr.caret e.lines 0 0 0 (le_refl 0) hmet
      cl cc x0 y l'' hw hget''
    have htot : (linesDimens e.lines).Size.Y = totalH 0 e.lines := rfl
    have hbMin : e.scrollBounds.Min.Y = 0 := by
      simp [Editor.scrollBounds, hb]
    have hbMax : e.scrollBounds.Max.Y = e.dims.Size.Y - e.viewSize.Y := by
      simp [Editor.scrollBounds, hb]
    have hvis := scrollAdjust_visible e.scrollBounds.Min.Y e.scrollBounds.Max.Y
      e.viewSize.Y (max e.scrollBounds.Min.Y (min e.scrollOff.Y e.scrollBounds.Max.Y))
      (y - fixCeil l''.Ascent) (y + fixCeil l''.Descent)
      (by omega) (by rw [hbMin, hbMax]; rw [htot] at hdims; omega) (by omega)
      (by omega) (by omega)
    have hso : (({ e.scrollRel 0 0 with caretScroll := false } : Editor).scrollRel 0
        (if (y - fixCeil l''.Ascent) -
            max e.scrollBounds.Min.Y (min e.scrollOff.Y e.scrollBounds.Max.Y) < 0 then
          (y - fixCeil l''.Ascent) -
            max e.scrollBounds.Min.Y (min e.scrollOff.Y e.scrollBounds.Max.Y)
        else if (y + fixCeil l''.Descent) -
            (max e.scrollBounds.Min.Y (min e.scrollOff.Y e.scrollBounds.Max.Y) +
              e.viewSize.Y) > 0 then
          (y + fixCeil l''.Descent) -
            (max e.scrollBounds.Min.Y (min e.scrollOff.Y e.scrollBounds.Max.Y) +
              e.viewSize.Y)
        else 0)).scrollOff.Y =
        max e.scrollBounds.Min.Y
          (min (max e.scrollBounds.Min.Y (min e.scrollOff.Y e.scrollBounds.Max.Y) +
            (if (y - fixCeil l''.Ascent) -
                max e.scrollBounds.Min.Y (min e.scrollOff.Y e.scrollBounds.Max.Y) < 0 then
              (y - fixCeil l''.Ascent) -
                max e.scrollBounds.Min.Y (min e.scrollOff.Y e.scrollBounds.Max.Y)
            else if (y + fixCeil l''.Descent) -
                (max e.scrollBounds.Min.Y (min e.scrollOff.Y e.scrollBounds.Max.Y) +
                  e.viewSize.Y) > 0 then
              (y + fixCeil l''.Descent) -
                (max e.scrollBounds.Min.Y (min e.scrollOff.Y e.scrollBounds.Max.Y) +
                  e.viewSize.Y)
            else 0)) e.scrollBounds.Max.Y) := by
      rw [Editor.scrollRel, scrollAbs_scrollOff, hC, hFY]
    rw [hso]
    exact hvis
  · intro hb h1 h2 h3
    rw [hb]
    simp only [if_true]
    have hvis := scrollAdjust_visible e.scrollBounds.Min.X e.scrollBounds.Max.X
      e.viewSize.X (max e.scrollBounds.Min.X (min e.scrollOff.X e.scrollBounds.Max.X))
      (fixFloor x) (fixCeil x) h1 h2 h3 (by omega) (by omega)
    have hso : (({ e.scrollRel 0 0 with caretScroll := false } : Editor).scrollRel
        (if fixFloor x -
            max e.scrollBounds.Min.X (min e.scrollOff.X e.scrollBounds.Max.X) < 0 then
          fixFloor x -
            max e.scrollBounds.Min.X (min e.scrollOff.X e.scrollBounds.Max.X)
        else if fixCeil x -
            (max e.scrollBounds.Min.X (min e.scrollOff.X e.scrollBounds.Max.X) +
              e.viewSize.X) > 0 then
          fixCeil x -
            (max e.scrollBounds.Min.X (min e.scrollOff.X e.scrollBounds.Max.X) +
              e.viewSize.X)
        else 0) 0).scrollOff.X =
        max e.scrollBounds.Min.X
          (min (max e.scrollBounds.Min.X (min e.scrollOff.X e.scrollBounds.Max.X) +
            (if fixFloor x -
                max e.scrollBounds.Min.X (min e.scrollOff.X e.scrollBounds.Max.X) < 0 then
              fixFloor x -
                max e.scrollBounds.Min.X (min e.scrollOff.X e.scrollBounds.Max.X)
            else if fixCeil x -
                (max e.scrollBounds.Min.X (min e.scrollOff.X e.scrollBounds.Max.X) +
                  e.viewSize.X) > 0 then
              fixCeil x -
                (max e.scrollBounds.Min.X (min e.scrollOff.X e.scrollBounds.Max.X) +
                  e.viewSize.X)
            else 0)) e.scrollBounds.Max.X) := by
      rw [Editor.scrollRel, scrollAbs_scrollOff, hC, hFX]
    rw [hso]
    exact hvis

/-- C3 (counterexample): a `SingleLine` editor with a zero-width viewport
and the caret at the fractional position half a pixel (`x = 32/64`):
after the `Layout` scroll adjustment the scroll offset is 1, yet the caret
x spans pixels `[x.Floor, x.Ceil] = [0, 1]`, which does not lie within
`[scrollOff.X, scrollOff.X + viewSize.X] = [1, 1]`. -/
theorem layoutScroll_caret_visible_counterexample :
    cexViewEd.caretScroll = true ∧ cexViewEd.SingleLine = true ∧
    cexViewEd.layoutCaret = some (0, 1, 32, 1) ∧
    cexViewEd.layoutScroll =
      some { cexViewEd with caretScroll := false, scrollOff := { X := 1, Y := 0 } } ∧
    ¬ ((1 : Int) ≤ fixFloor 32 ∧ fixCeil 32 ≤ 1 + cexViewEd.viewSize.X) := by decide

theorem layoutScroll_caret_visible_witness :
    (edC3W.layoutCaret = some (1, 1, 64, 3) ∧ edC3W.caretScroll = true ∧
      edC3W.SingleLine = false ∧
      edC3W.dims.Size.Y = (linesDimens edC3W.lines).Size.Y ∧
      fixCeil (asciiLine ['c', 'd']).Ascent + fixCeil (asciiLine ['c', 'd']).Descent ≤
        edC3W.viewSize.Y) ∧
    (∃ e2, edC3W.layoutScroll = some e2 ∧
      e2.scrollOff.Y ≤ 3 - fixCeil (asciiLine ['c', 'd']).Ascent ∧
      3 + fixCeil (asciiLine ['c', 'd']).Descent ≤ e2.scrollOff.Y + edC3W.viewSize.Y) := by
  refine ⟨⟨by decide, by decide, by decide, by decide, by decide⟩, ?_⟩
  obtain ⟨e2, h1, h2, h3⟩ := layoutScroll_caret_visible edC3W 1 1 64 3 (asciiLine ['c', 'd'])
    (by decide) (by decide) (by decide) (by decide)
  exact ⟨e2, h1, h2 (by decide) (by decide) (by decide) (by decide)⟩

theorem progressBar_ignores_backgroundColor_witness :
    ({ Height := 4, BackgroundColor := ProgressBarGreen, ProgressColor := ProgressBarGreen } :
        ProgressBar).Layout { widthMax := 8 } 25 =
      ({ Height := 4, BackgroundColor := ProgressBarGray, ProgressColor := ProgressBarGreen } :
        ProgressBar).Layout { widthMax := 8 } 25 :=
  (progressBar_ignores_backgroundColor _ _ { widthMax := 8 } 25 rfl rfl).1

end Godcr
